import Mathlib

/-!
# Rubik's cube engine (`include/rubiks_cube.h`)

A shallow embedding of `RubiksCube`: the 27 sub-cubes with their 4x4 model
matrices and colour masks, the rotation state machine driven by `update`,
the move queue, `shuffle`, and the colour read-out `getCubeState`.

Numbers: `float` values are rationals and arithmetic on them is exact.  The
angle handed to `glm::rotate` is always `90 * direction` degrees with an
integer `direction`, so its cosine and sine are the exact values
`0, 1, -1` (the 90-degree rotation is taken as exact).
-/

namespace Rubiks

/-! ## The part of glm the engine uses -/

/-- The type `glm::vec3`. -/
structure Vec3 where
  x : ℚ
  y : ℚ
  z : ℚ
deriving DecidableEq, Repr

/-- The type `glm::vec4`. -/
structure Vec4 where
  x : ℚ
  y : ℚ
  z : ℚ
  w : ℚ
deriving DecidableEq, Repr

/-- The type `glm::mat3`, stored by columns as in glm. -/
structure Mat3 where
  c0 : Vec3
  c1 : Vec3
  c2 : Vec3
deriving DecidableEq, Repr

/-- The type `glm::mat4`, stored by columns as in glm: `m[3]` is `c3`. -/
structure Mat4 where
  c0 : Vec4
  c1 : Vec4
  c2 : Vec4
  c3 : Vec4
deriving DecidableEq, Repr

/-- The product `v * k` of a vector and a scalar. -/
def Vec3.scale (v : Vec3) (k : ℚ) : Vec3 := ⟨v.x * k, v.y * k, v.z * k⟩

/-- The function `glm::dot` on `vec3`. -/
def dot (a b : Vec3) : ℚ := a.x * b.x + a.y * b.y + a.z * b.z

/-- The product `v * k` of a `vec4` and a scalar. -/
def Vec4.scale (v : Vec4) (k : ℚ) : Vec4 := ⟨v.x * k, v.y * k, v.z * k, v.w * k⟩

/-- Sum of two `vec4`. -/
def Vec4.add (a b : Vec4) : Vec4 := ⟨a.x + b.x, a.y + b.y, a.z + b.z, a.w + b.w⟩

/-- The conversion `glm::vec3(v)` of a `vec4`: the first three components. -/
def Vec4.xyz (v : Vec4) : Vec3 := ⟨v.x, v.y, v.z⟩

/-- The matrix `glm::mat4(1.0f)`. -/
def Mat4.identity : Mat4 := ⟨⟨1, 0, 0, 0⟩, ⟨0, 1, 0, 0⟩, ⟨0, 0, 1, 0⟩, ⟨0, 0, 0, 1⟩⟩

/-- The product `m * v` of a `mat4` and a `vec4`: the combination of the columns. -/
def Mat4.mulVec (m : Mat4) (v : Vec4) : Vec4 :=
  ((m.c0.scale v.x).add (m.c1.scale v.y)).add ((m.c2.scale v.z).add (m.c3.scale v.w))

/-- The product `a * b` of two `mat4`: column `j` is `a * b[j]`. -/
def Mat4.mul (a b : Mat4) : Mat4 :=
  ⟨a.mulVec b.c0, a.mulVec b.c1, a.mulVec b.c2, a.mulVec b.c3⟩

/-- The conversion `glm::mat3(m)`: the upper-left 3x3 block. -/
def Mat4.toMat3 (m : Mat4) : Mat3 := ⟨m.c0.xyz, m.c1.xyz, m.c2.xyz⟩

/-- The product `m * v` of a `mat3` and a `vec3`. -/
def Mat3.mulVec (m : Mat3) (v : Vec3) : Vec3 :=
  ⟨m.c0.x * v.x + m.c1.x * v.y + m.c2.x * v.z,
   m.c0.y * v.x + m.c1.y * v.y + m.c2.y * v.z,
   m.c0.z * v.x + m.c1.z * v.y + m.c2.z * v.z⟩

/-- The function `glm::translate(m, v)`: the last column becomes
`m[0]*v[0] + m[1]*v[1] + m[2]*v[2] + m[3]`. -/
def translate (m : Mat4) (v : Vec3) : Mat4 :=
  { m with c3 := ((m.c0.scale v.x).add (m.c1.scale v.y)).add ((m.c2.scale v.z).add m.c3) }

/-- The function `glm::normalize`: `v * inversesqrt(dot(v, v))`.  The square
root is `Rat.sqrt`, exact on the squares of rationals; the axes of the legal
commands have squared length 1. -/
def normalize (v : Vec3) : Vec3 := v.scale (1 / Rat.sqrt (dot v v))

/-- The value `cos(glm::radians(90 * k))` for an integer `k`. -/
def cosQuarter (k : ℤ) : ℚ :=
  if k % 4 = 0 then 1 else if k % 4 = 2 then -1 else 0

/-- The value `sin(glm::radians(90 * k))` for an integer `k`. -/
def sinQuarter (k : ℤ) : ℚ :=
  if k % 4 = 1 then 1 else if k % 4 = 3 then -1 else 0

/-- The function `glm::rotate(glm::mat4(1.0f), glm::radians(90 * k), v)`: the
matrix `Rotate` of glm, entry by entry (`Rotate[c][r]` is row `r` of column
`c`), which for the identity argument is also the result. -/
def rotate (k : ℤ) (v : Vec3) : Mat4 :=
  let c := cosQuarter k
  let s := sinQuarter k
  let axis := normalize v
  let temp := axis.scale (1 - c)
  ⟨⟨c + temp.x * axis.x, temp.x * axis.y + s * axis.z, temp.x * axis.z - s * axis.y, 0⟩,
   ⟨temp.y * axis.x - s * axis.z, c + temp.y * axis.y, temp.y * axis.z + s * axis.x, 0⟩,
   ⟨temp.z * axis.x + s * axis.y, temp.z * axis.y - s * axis.x, c + temp.z * axis.z, 0⟩,
   ⟨0, 0, 0, 1⟩⟩

/-- The C function `round`: to the nearest integer, halves away from zero. -/
def cround (q : ℚ) : ℤ := if 0 ≤ q then ⌊q + 1 / 2⌋ else -⌊-q + 1 / 2⌋

/-! ## Data model -/

/-- The struct `Cube`: one sub-cube. -/
structure Cube where
  model : Mat4
  colorMask : ℕ
deriving DecidableEq, Repr

/-- The enum `Color`. -/
inductive Color
  | BLUE | GREEN | ORANGE | RED | YELLOW | WHITE | BLACK
deriving DecidableEq, Repr

/-- The struct `RubiksCube::RotationConfig`. -/
structure RotationConfig where
  axis : Vec3
  side : ℤ
  direction : ℤ
deriving DecidableEq, Repr

/-- The member `m_targetAngle`, initialised to 90 and never assigned. -/
def m_targetAngle : ℚ := 90

/-- The class `RubiksCube`: its data members. -/
structure RubiksCube where
  m_rotationSpeed : ℚ
  m_cubeSpacing : ℚ
  m_shuffleSteps : ℤ
  m_cubes : List Cube
  m_moveQueue : List RotationConfig
  m_isAnimating : Bool
  m_currentAngle : ℚ
  m_rotationAxis : Vec3
  m_rotationSide : ℤ
  m_rotationDirection : ℤ
deriving DecidableEq, Repr

/-- The constructor `RubiksCube(rotationSpeed, cubeSpacing, shuffleSteps)`
with the default member initialisers. -/
def RubiksCube.new (rotationSpeed cubeSpacing : ℚ) (shuffleSteps : ℤ) : RubiksCube :=
  { m_rotationSpeed := rotationSpeed
    m_cubeSpacing := cubeSpacing
    m_shuffleSteps := shuffleSteps
    m_cubes := []
    m_moveQueue := []
    m_isAnimating := false
    m_currentAngle := 0
    m_rotationAxis := ⟨0, 0, 0⟩
    m_rotationSide := 0
    m_rotationDirection := 0 }


/-! ## The engine -/

/-- The values of the loops `for (int x = -1; x <= 1; ++x)` of `init`. -/
def gridRange : List ℤ := [-1, 0, 1]

/-- The `colorMask` computed in the innermost loop of `init`: bit 0 back
(`z == -1`), 1 front, 2 left, 3 right, 4 bottom, 5 top. -/
def initMask (x y z : ℤ) : ℕ :=
  let m : ℕ := 0
  let m := if z = -1 then m ||| (1 <<< 0) else m
  let m := if z = 1 then m ||| (1 <<< 1) else m
  let m := if x = -1 then m ||| (1 <<< 2) else m
  let m := if x = 1 then m ||| (1 <<< 3) else m
  let m := if y = -1 then m ||| (1 <<< 4) else m
  let m := if y = 1 then m ||| (1 <<< 5) else m
  m

/-- The body of the innermost loop of `init`: the sub-cube created at grid
coordinate `(x, y, z)`. -/
def initCube (spacing : ℚ) (x y z : ℤ) : Cube :=
  let pos : Vec3 := ⟨x * spacing, y * spacing, z * spacing⟩
  { model := translate Mat4.identity pos, colorMask := initMask x y z }

/-- The method `init`: appends the 27 sub-cubes to `m_cubes`, `x` outermost. -/
def init (s : RubiksCube) : RubiksCube :=
  { s with m_cubes := s.m_cubes ++
      gridRange.flatMap fun x => gridRange.flatMap fun y => gridRange.map fun z =>
        initCube s.m_cubeSpacing x y z }

/-- The method `initRotation`. -/
def initRotation (s : RubiksCube) (cfg : RotationConfig) : RubiksCube :=
  { s with
    m_isAnimating := true
    m_rotationAxis := cfg.axis
    m_rotationSide := cfg.side
    m_rotationDirection := cfg.direction
    m_currentAngle := 0 }

/-- The method `addMove` (both overloads push the same `RotationConfig`). -/
def addMove (s : RubiksCube) (cfg : RotationConfig) : RubiksCube :=
  { s with m_moveQueue := s.m_moveQueue ++ [cfg] }

/-- One iteration of the loop of `shuffle`, given the three values `rand()`
returns in it, in call order: axis, direction, side. -/
def shuffleConfig (r0 r1 r2 : ℕ) : RotationConfig :=
  { axis := if r0 % 3 = 0 then ⟨1, 0, 0⟩ else if r0 % 3 = 1 then ⟨0, 1, 0⟩ else ⟨0, 0, 1⟩
    direction := if r1 % 2 = 0 then 1 else -1
    side := if r2 % 2 = 0 then 1 else -1 }

/-- The loop of `shuffle` from iteration `i` for `n` more iterations; `rnd k`
is the value of the `k`-th call of `rand()`. -/
def shuffleLoop (rnd : ℕ → ℕ) : ℕ → ℕ → RubiksCube → RubiksCube
  | _, 0, s => s
  | i, n + 1, s =>
      shuffleLoop rnd (i + 1) n
        (addMove s (shuffleConfig (rnd (3 * i)) (rnd (3 * i + 1)) (rnd (3 * i + 2))))

/-- The method `shuffle`: `m_shuffleSteps` iterations (none when it is not positive). -/
def shuffle (rnd : ℕ → ℕ) (s : RubiksCube) : RubiksCube :=
  shuffleLoop rnd 0 s.m_shuffleSteps.toNat s

/-- The test `std::abs(dot - m_rotationSide * m_cubeSpacing) < 0.1f` of
`update` and `draw` on one sub-cube. -/
def isRotating (spacing : ℚ) (axis : Vec3) (side : ℤ) (cube : Cube) : Bool :=
  decide (|dot cube.model.c3.xyz axis - side * spacing| < 1 / 10)

/-- The body of the loop `for (auto& cube : m_cubes)` of `update`: a sub-cube
of the layer gets `rotation * cube.model`. -/
def commitCube (spacing : ℚ) (cfg : RotationConfig) (cube : Cube) : Cube :=
  let axis := cfg.axis.scale cfg.side
  let rotation := rotate cfg.direction axis
  if isRotating spacing cfg.axis cfg.side cube then
    { cube with model := rotation.mul cube.model }
  else cube

/-- The loop `for (auto& cube : m_cubes)` of `update`: the commit of the
rotation `cfg` to the sub-cubes of its layer. -/
def commitCubes (spacing : ℚ) (cfg : RotationConfig) (cubes : List Cube) : List Cube :=
  cubes.map (commitCube spacing cfg)

/-- The first statement of `update`: dequeue the head when idle, or reset the
speed when idle with an empty queue. -/
def beginFrame (s : RubiksCube) : RubiksCube :=
  if s.m_isAnimating then s
  else
    match s.m_moveQueue with
    | queuedRotation :: rest =>
        { s with
          m_moveQueue := rest
          m_rotationAxis := queuedRotation.axis
          m_rotationDirection := queuedRotation.direction
          m_rotationSide := queuedRotation.side
          m_isAnimating := true
          m_currentAngle := 0
          m_rotationSpeed := 400 }
    | [] => { s with m_rotationSpeed := 200 }

/-- The second statement of `update`: advance the angle and commit at 90 degrees. -/
def advance (s : RubiksCube) (deltaTime : ℚ) : RubiksCube :=
  if s.m_isAnimating then
    let angle := s.m_currentAngle + s.m_rotationSpeed * deltaTime
    if angle ≥ m_targetAngle then
      { s with
        m_cubes := commitCubes s.m_cubeSpacing
          ⟨s.m_rotationAxis, s.m_rotationSide, s.m_rotationDirection⟩ s.m_cubes
        m_isAnimating := false
        m_currentAngle := 0 }
    else { s with m_currentAngle := angle }
  else s

/-- The method `update`. -/
def update (s : RubiksCube) (deltaTime : ℚ) : RubiksCube :=
  advance (beginFrame s) deltaTime

/-- The method `isAnimating`. -/
def isAnimating (s : RubiksCube) : Bool := s.m_isAnimating

/-! ## The colour read-out -/

/-- The six arrays of `CubeState`. -/
inductive Face
  | front | back | left | right | top | bottom
deriving DecidableEq, Repr, Fintype

/-- One array `Color f[3][3]`: row, then column. -/
abbrev Grid := Fin 3 → Fin 3 → Color

/-- The struct `CubeState`. -/
structure CubeState where
  front : Grid
  back : Grid
  left : Grid
  right : Grid
  top : Grid
  bottom : Grid
deriving DecidableEq

/-- The array of a face. -/
def CubeState.face (st : CubeState) : Face → Grid
  | .front => st.front
  | .back => st.back
  | .left => st.left
  | .right => st.right
  | .top => st.top
  | .bottom => st.bottom

/-- One assignment `state.f[row][col] = color` of `getCubeState`, with the
indices as the `int`s the code computes. -/
structure CellWrite where
  face : Face
  row : ℤ
  col : ℤ
  color : Color
deriving DecidableEq, Repr

/-- The array `localNormals`. -/
def localNormals : ℕ → Vec3
  | 0 => ⟨0, 0, -1⟩
  | 1 => ⟨0, 0, 1⟩
  | 2 => ⟨-1, 0, 0⟩
  | 3 => ⟨1, 0, 0⟩
  | 4 => ⟨0, -1, 0⟩
  | _ => ⟨0, 1, 0⟩

/-- The array `localColors`. -/
def localColors : ℕ → Color
  | 0 => .BLUE
  | 1 => .GREEN
  | 2 => .ORANGE
  | 3 => .RED
  | 4 => .YELLOW
  | _ => .WHITE

/-- The `if` chain of `getCubeState` on the rotated normal of a local face:
the face array and the indices it writes, if any. -/
def classify (currentNormal : Vec3) (x y z : ℤ) (color : Color) : Option CellWrite :=
  if dot currentNormal ⟨0, 0, 1⟩ > 9 / 10 then some ⟨.front, 1 - y, x + 1, color⟩
  else if dot currentNormal ⟨0, 0, -1⟩ > 9 / 10 then some ⟨.back, 1 - y, 1 - x, color⟩
  else if dot currentNormal ⟨1, 0, 0⟩ > 9 / 10 then some ⟨.right, 1 - y, 1 - z, color⟩
  else if dot currentNormal ⟨-1, 0, 0⟩ > 9 / 10 then some ⟨.left, 1 - y, z + 1, color⟩
  else if dot currentNormal ⟨0, 1, 0⟩ > 9 / 10 then some ⟨.top, z + 1, x + 1, color⟩
  else if dot currentNormal ⟨0, -1, 0⟩ > 9 / 10 then some ⟨.bottom, 1 - z, x + 1, color⟩
  else none

/-- The body of the loop `for (auto& cube : m_cubes)` of `getCubeState`: the
assignments one sub-cube makes, in the order of the inner loop over `i`. -/
def cubeWrites (spacing : ℚ) (cube : Cube) : List CellWrite :=
  let x := cround (cube.model.c3.x / spacing)
  let y := cround (cube.model.c3.y / spacing)
  let z := cround (cube.model.c3.z / spacing)
  let rotation := cube.model.toMat3
  (List.range 6).filterMap fun i =>
    if cube.colorMask &&& (1 <<< i) = 0 then none
    else classify (rotation.mulVec (localNormals i)) x y z (localColors i)

/-- All assignments of `getCubeState`, in execution order. -/
def stateWrites (s : RubiksCube) : List CellWrite :=
  s.m_cubes.flatMap (cubeWrites s.m_cubeSpacing)

/-- The state after the loop `Init black`. -/
def blackState : CubeState :=
  ⟨fun _ _ => .BLACK, fun _ _ => .BLACK, fun _ _ => .BLACK,
   fun _ _ => .BLACK, fun _ _ => .BLACK, fun _ _ => .BLACK⟩

/-- The indices of an assignment lie inside the 3x3 array. -/
def CellWrite.inBounds (w : CellWrite) : Prop :=
  0 ≤ w.row ∧ w.row < 3 ∧ 0 ≤ w.col ∧ w.col < 3

instance (w : CellWrite) : Decidable w.inBounds := by
  unfold CellWrite.inBounds; infer_instance

/-- An array with the cell `[row][col]` overwritten. -/
def Grid.set (g : Grid) (row col : ℤ) (color : Color) : Grid :=
  fun i j => if row = (i : ℤ) ∧ col = (j : ℤ) then color else g i j

/-- One assignment carried out; an index outside the array is undefined
behaviour in the source and gives no result here. -/
def CubeState.write (st : CubeState) (w : CellWrite) : Option CubeState :=
  if w.inBounds then
    some (match w.face with
      | .front => { st with front := st.front.set w.row w.col w.color }
      | .back => { st with back := st.back.set w.row w.col w.color }
      | .left => { st with left := st.left.set w.row w.col w.color }
      | .right => { st with right := st.right.set w.row w.col w.color }
      | .top => { st with top := st.top.set w.row w.col w.color }
      | .bottom => { st with bottom := st.bottom.set w.row w.col w.color })
  else none

/-- A sequence of assignments carried out in order. -/
def CubeState.writeAll (st : CubeState) : List CellWrite → Option CubeState
  | [] => some st
  | w :: ws => (st.write w).bind fun st1 => st1.writeAll ws

/-- The method `getCubeState`. -/
def getCubeState (s : RubiksCube) : Option CubeState :=
  blackState.writeAll (stateWrites s)

/-! ## Commands and runs -/

/-- A legal command: the axis is a canonical unit vector, side and direction
are 1 or -1. -/
def Legal (cfg : RotationConfig) : Prop :=
  (cfg.axis = ⟨1, 0, 0⟩ ∨ cfg.axis = ⟨0, 1, 0⟩ ∨ cfg.axis = ⟨0, 0, 1⟩) ∧
  (cfg.side = 1 ∨ cfg.side = -1) ∧ (cfg.direction = 1 ∨ cfg.direction = -1)

instance (cfg : RotationConfig) : Decidable (Legal cfg) := by
  unfold Legal; infer_instance

/-- The inverse command: same axis and side, direction negated. -/
def RotationConfig.inverse (cfg : RotationConfig) : RotationConfig :=
  { cfg with direction := -cfg.direction }

/-- The rotation an animating engine is carrying out. -/
def activeConfig (s : RubiksCube) : RotationConfig :=
  ⟨s.m_rotationAxis, s.m_rotationSide, s.m_rotationDirection⟩

/-- Successive calls `update(dt)`, one per frame, with the given time steps. -/
def updates (s : RubiksCube) (dts : List ℚ) : RubiksCube :=
  dts.foldl update s

/-- The commits of a list of rotations, one after the other. -/
def commitAll (spacing : ℚ) (cfgs : List RotationConfig) (cubes : List Cube) : List Cube :=
  cfgs.foldl (fun cs cfg => commitCubes spacing cfg cs) cubes

/-- A number of frames that is enough to finish one rotation that turns at
`speed` degrees per second or faster, when every frame lasts at least `dtMin`. -/
def framesFor (speed dtMin : ℚ) : ℕ := ⌈m_targetAngle / (speed * dtMin)⌉₊ + 1


/-- The rotations an engine still has to commit: the active one, then the queue. -/
def pending (s : RubiksCube) : List RotationConfig :=
  (if s.m_isAnimating then [activeConfig s] else []) ++ s.m_moveQueue

/-- The rotation that the call `update(dt)` commits, if it commits one: the
test `m_currentAngle >= m_targetAngle` after the angle was advanced. -/
def commitOf (s : RubiksCube) (deltaTime : ℚ) : Option RotationConfig :=
  let s1 := beginFrame s
  if s1.m_isAnimating ∧ s1.m_currentAngle + s1.m_rotationSpeed * deltaTime ≥ m_targetAngle then
    some (activeConfig s1)
  else none

/-- The rotations committed by successive calls of `update`, in call order. -/
def commitLog (s : RubiksCube) : List ℚ → List RotationConfig
  | [] => []
  | dt :: dts => (commitOf s dt).toList ++ commitLog (update s dt) dts

/-- A bound on the degrees of turning still ahead of an engine, counting one
extra frame step `eps` per rotation. -/
def workLeft (eps : ℚ) (s : RubiksCube) : ℚ :=
  (if s.m_isAnimating then max (m_targetAngle - s.m_currentAngle) 0 + eps else 0) +
    s.m_moveQueue.length * (m_targetAngle + eps)

/-- Start `cfg` by a direct request, as `key_callback` does, then run the frames. -/
def perform (s : RubiksCube) (cfg : RotationConfig) (dts : List ℚ) : RubiksCube :=
  updates (initRotation s cfg) dts

/-- Successive calls of `addMove`. -/
def addMoves (s : RubiksCube) (cfgs : List RotationConfig) : RubiksCube :=
  cfgs.foldl addMove s

/-- A run of frames, each lasting at least `dtMin`, long enough for `k`
rotations that turn at `speed` degrees per second or faster. -/
def EnoughFrames (k : ℕ) (speed dtMin : ℚ) (dts : List ℚ) : Prop :=
  (∀ d ∈ dts, dtMin ≤ d) ∧ k * framesFor speed dtMin ≤ dts.length

/-- The engine states the operations can produce from a freshly initialised
cube, with legal commands only. -/
inductive Reachable (speed spacing : ℚ) (steps : ℤ) : RubiksCube → Prop
  | init : Reachable speed spacing steps (init (RubiksCube.new speed spacing steps))
  | initRotation (s : RubiksCube) (cfg : RotationConfig) :
      Reachable speed spacing steps s → Legal cfg →
      Reachable speed spacing steps (initRotation s cfg)
  | addMove (s : RubiksCube) (cfg : RotationConfig) :
      Reachable speed spacing steps s → Legal cfg →
      Reachable speed spacing steps (addMove s cfg)
  | shuffle (s : RubiksCube) (rnd : ℕ → ℕ) :
      Reachable speed spacing steps s → Reachable speed spacing steps (shuffle rnd s)
  | update (s : RubiksCube) (dt : ℚ) :
      Reachable speed spacing steps s → Reachable speed spacing steps (update s dt)

/-! ## The lattice picture of a settled cube

Between rotations every model matrix is a signed permutation matrix with a
translation on the lattice `spacing * {-1,0,1}^3`.  The definitions below
describe such a sub-cube by integers; the theorems relate them to the engine. -/

/-- An integer vector. -/
structure IVec3 where
  x : ℤ
  y : ℤ
  z : ℤ
deriving DecidableEq, Repr

/-- An integer 3x3 matrix, by columns. -/
structure IMat3 where
  c0 : IVec3
  c1 : IVec3
  c2 : IVec3
deriving DecidableEq, Repr

/-- Matrix times vector. -/
def IMat3.mulVec (m : IMat3) (v : IVec3) : IVec3 :=
  ⟨m.c0.x * v.x + m.c1.x * v.y + m.c2.x * v.z,
   m.c0.y * v.x + m.c1.y * v.y + m.c2.y * v.z,
   m.c0.z * v.x + m.c1.z * v.y + m.c2.z * v.z⟩

/-- Matrix times matrix. -/
def IMat3.mul (a b : IMat3) : IMat3 := ⟨a.mulVec b.c0, a.mulVec b.c1, a.mulVec b.c2⟩

/-- The identity matrix. -/
def IMat3.identity : IMat3 := ⟨⟨1, 0, 0⟩, ⟨0, 1, 0⟩, ⟨0, 0, 1⟩⟩

/-- Integer dot product. -/
def IVec3.dot (a b : IVec3) : ℤ := a.x * b.x + a.y * b.y + a.z * b.z

/-- A settled sub-cube: the rotation it has accumulated and the grid
coordinate `init` created it at. -/
structure LatticeCube where
  rot : IMat3
  home : IVec3
deriving DecidableEq, Repr

/-- The grid coordinate a settled sub-cube is at now. -/
def LatticeCube.pos (c : LatticeCube) : IVec3 := c.rot.mulVec c.home

/-- The engine's sub-cube for a settled sub-cube. -/
def LatticeCube.toCube (spacing : ℚ) (c : LatticeCube) : Cube :=
  { model :=
      ⟨⟨c.rot.c0.x, c.rot.c0.y, c.rot.c0.z, 0⟩,
       ⟨c.rot.c1.x, c.rot.c1.y, c.rot.c1.z, 0⟩,
       ⟨c.rot.c2.x, c.rot.c2.y, c.rot.c2.z, 0⟩,
       ⟨c.pos.x * spacing, c.pos.y * spacing, c.pos.z * spacing, 1⟩⟩
    colorMask := initMask c.home.x c.home.y c.home.z }

/-- The 27 grid coordinates in the order `init` visits them. -/
def gridPoints : List IVec3 :=
  gridRange.flatMap fun x => gridRange.flatMap fun y => gridRange.map fun z => ⟨x, y, z⟩

/-- The settled sub-cubes of a freshly initialised cube. -/
def latticeInit : List LatticeCube := gridPoints.map fun p => ⟨IMat3.identity, p⟩

/-- A legal command by integers: axis index 0, 1, 2 for X, Y, Z. -/
structure Turn where
  axis : Fin 3
  side : ℤ
  direction : ℤ
deriving DecidableEq, Repr

/-- The axis of a turn as a `vec3`. -/
def Turn.vec (t : Turn) : Vec3 :=
  if t.axis = 0 then ⟨1, 0, 0⟩ else if t.axis = 1 then ⟨0, 1, 0⟩ else ⟨0, 0, 1⟩

/-- The axis of a turn as an integer vector. -/
def Turn.ivec (t : Turn) : IVec3 :=
  if t.axis = 0 then ⟨1, 0, 0⟩ else if t.axis = 1 then ⟨0, 1, 0⟩ else ⟨0, 0, 1⟩

/-- The command of a turn. -/
def Turn.cfg (t : Turn) : RotationConfig := ⟨t.vec, t.side, t.direction⟩

/-- The twelve legal turns. -/
def allTurns : List Turn :=
  (List.finRange 3).flatMap fun a => [1, -1].flatMap fun s => [1, -1].map fun d => ⟨a, s, d⟩

/-- The matrix of `glm::rotate` for a quarter turn (cosine 0, sine
`direction`) about `axis * side`, in integers. -/
def Turn.matrix (t : Turn) : IMat3 :=
  let s := t.direction
  let ax := t.ivec.x * t.side
  let ay := t.ivec.y * t.side
  let az := t.ivec.z * t.side
  ⟨⟨ax * ax, ax * ay + s * az, ax * az - s * ay⟩,
   ⟨ay * ax - s * az, ay * ay, ay * az + s * ax⟩,
   ⟨az * ax + s * ay, az * ay - s * ax, az * az⟩⟩

/-- The effect of a committed turn on a grid coordinate. -/
def Turn.move (t : Turn) (p : IVec3) : IVec3 :=
  if p.dot t.ivec = t.side then t.matrix.mulVec p else p

/-- The effect of a committed turn on a settled sub-cube. -/
def LatticeCube.turn (t : Turn) (c : LatticeCube) : LatticeCube :=
  if c.pos.dot t.ivec = t.side then { c with rot := t.matrix.mul c.rot } else c

/-- The array `localNormals` in integers. -/
def localNormalsI : ℕ → IVec3
  | 0 => ⟨0, 0, -1⟩
  | 1 => ⟨0, 0, 1⟩
  | 2 => ⟨-1, 0, 0⟩
  | 3 => ⟨1, 0, 0⟩
  | 4 => ⟨0, -1, 0⟩
  | _ => ⟨0, 1, 0⟩

/-- The `if` chain of `getCubeState` on an integer normal. -/
def classifyI (n : IVec3) (x y z : ℤ) (color : Color) : Option CellWrite :=
  if 1 ≤ n.z then some ⟨.front, 1 - y, x + 1, color⟩
  else if n.z ≤ -1 then some ⟨.back, 1 - y, 1 - x, color⟩
  else if 1 ≤ n.x then some ⟨.right, 1 - y, 1 - z, color⟩
  else if n.x ≤ -1 then some ⟨.left, 1 - y, z + 1, color⟩
  else if 1 ≤ n.y then some ⟨.top, z + 1, x + 1, color⟩
  else if n.y ≤ -1 then some ⟨.bottom, 1 - z, x + 1, color⟩
  else none

/-- The assignments `getCubeState` makes for a settled sub-cube. -/
def LatticeCube.writes (c : LatticeCube) : List CellWrite :=
  (List.range 6).filterMap fun i =>
    if initMask c.home.x c.home.y c.home.z &&& (1 <<< i) = 0 then none
    else classifyI (c.rot.mulVec (localNormalsI i)) c.pos.x c.pos.y c.pos.z (localColors i)

/-- The 48 signed permutation matrices. -/
def signedPerms : List IMat3 :=
  let e : List IVec3 := [⟨1, 0, 0⟩, ⟨0, 1, 0⟩, ⟨0, 0, 1⟩]
  let neg : IVec3 → IVec3 := fun v => ⟨-v.x, -v.y, -v.z⟩
  (e.flatMap fun a => e.flatMap fun b => e.flatMap fun c =>
    if a ≠ b ∧ b ≠ c ∧ a ≠ c then [(a, b, c)] else []).flatMap fun (a, b, c) =>
    [a, neg a].flatMap fun a1 => [b, neg b].flatMap fun b1 => [c, neg c].map fun c1 =>
      ⟨a1, b1, c1⟩

/-- A cell of the read-out: face, row, column. -/
abbrev Cell := Face × ℤ × ℤ

/-- The cell an assignment writes. -/
def CellWrite.cell (w : CellWrite) : Cell := (w.face, w.row, w.col)

/-- The cells of the read-out that show the sub-cube at grid coordinate `p`:
one for each outer face the coordinate lies on. -/
def outwardCells (p : IVec3) : List Cell :=
  (if p.z = 1 then [(Face.front, 1 - p.y, p.x + 1)] else []) ++
  (if p.z = -1 then [(Face.back, 1 - p.y, 1 - p.x)] else []) ++
  (if p.x = 1 then [(Face.right, 1 - p.y, 1 - p.z)] else []) ++
  (if p.x = -1 then [(Face.left, 1 - p.y, p.z + 1)] else []) ++
  (if p.y = 1 then [(Face.top, p.z + 1, p.x + 1)] else []) ++
  (if p.y = -1 then [(Face.bottom, 1 - p.z, p.x + 1)] else [])

/-- The 54 cells of the six 3x3 arrays. -/
def allCells : List Cell :=
  [Face.front, .back, .left, .right, .top, .bottom].flatMap fun f =>
    [0, 1, 2].flatMap fun (r : ℤ) => [0, 1, 2].map fun (c : ℤ) => (f, r, c)

/-- The coordinates of a grid point are -1, 0 or 1. -/
def IVec3.InGrid (p : IVec3) : Prop :=
  (p.x = -1 ∨ p.x = 0 ∨ p.x = 1) ∧ (p.y = -1 ∨ p.y = 0 ∨ p.y = 1) ∧
    (p.z = -1 ∨ p.z = 0 ∨ p.z = 1)

instance (p : IVec3) : Decidable p.InGrid := by
  unfold IVec3.InGrid; infer_instance

/-- An integer matrix as a `mat4` without translation. -/
def IMat3.toMat4 (m : IMat3) : Mat4 :=
  ⟨⟨m.c0.x, m.c0.y, m.c0.z, 0⟩, ⟨m.c1.x, m.c1.y, m.c1.z, 0⟩, ⟨m.c2.x, m.c2.y, m.c2.z, 0⟩,
   ⟨0, 0, 0, 1⟩⟩

/-- A list of settled sub-cubes that fills the lattice: signed permutation
rotations, homes on the grid, and the 27 grid coordinates occupied once each. -/
def LatticeOK (cs : List LatticeCube) : Prop :=
  (∀ c ∈ cs, c.rot ∈ signedPerms ∧ c.home ∈ gridPoints) ∧
    (cs.map LatticeCube.pos).Perm gridPoints

/-- The sub-cubes of an engine are settled: they are the engine form of a
list of lattice sub-cubes that fills the lattice. -/
def Settled (spacing : ℚ) (cubes : List Cube) : Prop :=
  ∃ cs : List LatticeCube, cubes = cs.map (LatticeCube.toCube spacing) ∧ LatticeOK cs

/-- The commands `shuffle` enqueues in `n` iterations starting at iteration `i`. -/
def shuffleDraws (rnd : ℕ → ℕ) : ℕ → ℕ → List RotationConfig
  | _, 0 => []
  | i, n + 1 =>
      shuffleConfig (rnd (3 * i)) (rnd (3 * i + 1)) (rnd (3 * i + 2)) ::
        shuffleDraws rnd (i + 1) n

/-- The invariant of the engine: the spacing is fixed, the sub-cubes are
settled, and the active and the queued rotations are legal. -/
def EngineOK (spacing : ℚ) (s : RubiksCube) : Prop :=
  s.m_cubeSpacing = spacing ∧ Settled spacing s.m_cubes ∧
    (s.m_isAnimating = true → Legal (activeConfig s)) ∧ ∀ c ∈ s.m_moveQueue, Legal c

/-- The read-out of a solved cube: every face in its own colour. -/
def solvedState : CubeState :=
  { front := fun _ _ => .GREEN
    back := fun _ _ => .BLUE
    left := fun _ _ => .ORANGE
    right := fun _ _ => .RED
    top := fun _ _ => .WHITE
    bottom := fun _ _ => .YELLOW }

/-- The command of key `1` in `key_callback` ("rotate front"). -/
def frontTurn : RotationConfig := ⟨⟨0, 0, 1⟩, 1, -1⟩

/-- The read-out expected after the front turn on a solved cube: front and
back unchanged, top row 2 orange, right column 0 white, bottom row 0 red,
left column 2 yellow, every other cell in its solved colour. -/
def afterFrontTurn : CubeState :=
  { front := fun _ _ => .GREEN
    back := fun _ _ => .BLUE
    left := fun _ j => if j = 2 then .YELLOW else .ORANGE
    right := fun _ j => if j = 0 then .WHITE else .RED
    top := fun i _ => if i = 2 then .ORANGE else .WHITE
    bottom := fun i _ => if i = 0 then .RED else .YELLOW }

/-- The engine `main.cpp` creates: speed 200, spacing 1.02, 50 shuffle steps,
after `init`. -/
def mainCube : RubiksCube := init (RubiksCube.new 200 (51 / 50) 50)

/-- The number of set bits among the 32 bits of an `int` mask. -/
def popcount (m : ℕ) : ℕ := ((List.range 32).filter fun i => m.testBit i).length

/-! ## Further notions for the frame, legality and lattice properties -/

/-- The rounded lattice coordinate `getCubeState` computes for a sub-cube:
`(int)round(cube.model[3][k] / m_cubeSpacing)` for `k = 0, 1, 2`. -/
def latticeCoord (spacing : ℚ) (cube : Cube) : IVec3 :=
  ⟨cround (cube.model.c3.x / spacing), cround (cube.model.c3.y / spacing),
   cround (cube.model.c3.z / spacing)⟩

/-- An integer vector as a `vec3`. -/
def IVec3.toVec3 (p : IVec3) : Vec3 := ⟨p.x, p.y, p.z⟩

/-- An integer matrix as a `mat3`. -/
def IMat3.toMat3 (m : IMat3) : Mat3 := ⟨m.c0.toVec3, m.c1.toVec3, m.c2.toVec3⟩

/-- The six axis directions. -/
def axisDirections : List Vec3 :=
  [⟨1, 0, 0⟩, ⟨-1, 0, 0⟩, ⟨0, 1, 0⟩, ⟨0, -1, 0⟩, ⟨0, 0, 1⟩, ⟨0, 0, -1⟩]

/-- The active rotation, if any, and every queued command are legal. -/
def CommandsLegal (s : RubiksCube) : Prop :=
  (s.m_isAnimating = true → Legal (activeConfig s)) ∧ ∀ c ∈ s.m_moveQueue, Legal c

/-- The homes of the settled sub-cubes are the grid points in creation order,
and a sub-cube whose mask has at most one bit is at its home. -/
def Anchored (cs : List LatticeCube) : Prop :=
  cs.map LatticeCube.home = gridPoints ∧
    ∀ c ∈ cs, popcount (initMask c.home.x c.home.y c.home.z) ≤ 1 → c.pos = c.home

/-- The sub-cubes are settled and anchored. -/
def SettledAnchored (spacing : ℚ) (cubes : List Cube) : Prop :=
  ∃ cs : List LatticeCube,
    cubes = cs.map (LatticeCube.toCube spacing) ∧ LatticeOK cs ∧ Anchored cs

/-- The keys `key_callback` tests for; `other` is any other key. -/
inductive Key
  | k1 | f1 | k2 | f2 | k3 | f3 | k4 | f4 | k5 | f5 | k6 | f6 | q | l | other
deriving DecidableEq, Repr

/-- The `RotationConfig` that `key_callback` builds for a rotation key. -/
def keyConfig : Key → Option RotationConfig
  | .k1 => some ⟨⟨0, 0, 1⟩, 1, -1⟩
  | .f1 => some ⟨⟨0, 0, 1⟩, 1, 1⟩
  | .k2 => some ⟨⟨0, 0, 1⟩, -1, -1⟩
  | .f2 => some ⟨⟨0, 0, 1⟩, -1, 1⟩
  | .k3 => some ⟨⟨1, 0, 0⟩, -1, -1⟩
  | .f3 => some ⟨⟨1, 0, 0⟩, -1, 1⟩
  | .k4 => some ⟨⟨1, 0, 0⟩, 1, -1⟩
  | .f4 => some ⟨⟨1, 0, 0⟩, 1, 1⟩
  | .k5 => some ⟨⟨0, 1, 0⟩, 1, -1⟩
  | .f5 => some ⟨⟨0, 1, 0⟩, 1, 1⟩
  | .k6 => some ⟨⟨0, 1, 0⟩, -1, -1⟩
  | .f6 => some ⟨⟨0, 1, 0⟩, -1, 1⟩
  | _ => none

/-- The function `key_callback` of `main.cpp` on the engine: nothing unless
the action is a press and the engine is idle; then a rotation key starts its
rotation, `Q` shuffles, and `L` only prints the read-out. -/
def key_callback (rnd : ℕ → ℕ) (s : RubiksCube) (key : Key) (press : Bool) : RubiksCube :=
  if press then
    if isAnimating s then s
    else
      match keyConfig key with
      | some cfg => initRotation s cfg
      | none => if key = .q then shuffle rnd s else s
  else s

/-- A command the engine accepts although its axis is not one of the three
canonical unit vectors. -/
def negativeAxisConfig : RotationConfig := ⟨⟨0, 0, -1⟩, -1, 1⟩

/-- An engine as `main.cpp` creates it, but with spacing 0.05. -/
def tightCube : RubiksCube := init (RubiksCube.new 200 (1 / 20) 50)

/-- The six axis directions in integers. -/
def axisDirectionsI : List IVec3 :=
  [⟨1, 0, 0⟩, ⟨-1, 0, 0⟩, ⟨0, 1, 0⟩, ⟨0, -1, 0⟩, ⟨0, 0, 1⟩, ⟨0, 0, -1⟩]

/-- A grid point scaled by the spacing: the translation of a sub-cube there. -/
def IVec3.scaled (spacing : ℚ) (p : IVec3) : Vec3 :=
  ⟨p.x * spacing, p.y * spacing, p.z * spacing⟩

/-! ## Rotation matrices of the legal commands -/

theorem sqrt_one : Rat.sqrt 1 = 1 := by decide

theorem rotate_mul_inverse (cfg : RotationConfig) (h : Legal cfg) (m : Mat4) :
    (rotate (-cfg.direction) (cfg.axis.scale cfg.side)).mul
      ((rotate cfg.direction (cfg.axis.scale cfg.side)).mul m) = m := by
  obtain ⟨axis, side, dir⟩ := cfg
  obtain ⟨ha, hs, hd⟩ := h
  simp only at ha hs hd
  obtain ⟨⟨a0, a1, a2, a3⟩, ⟨b0, b1, b2, b3⟩, ⟨c0, c1, c2, c3⟩, ⟨d0, d1, d2, d3⟩⟩ := m
  rcases ha with rfl | rfl | rfl <;> rcases hs with rfl | rfl <;> rcases hd with rfl | rfl <;>
    simp [rotate, normalize, dot, Vec3.scale, cosQuarter, sinQuarter, Mat4.mul, Mat4.mulVec,
      Vec4.scale, Vec4.add, sqrt_one]

theorem rotate_mul_four (cfg : RotationConfig) (h : Legal cfg) (m : Mat4) :
    (rotate cfg.direction (cfg.axis.scale cfg.side)).mul
      ((rotate cfg.direction (cfg.axis.scale cfg.side)).mul
        ((rotate cfg.direction (cfg.axis.scale cfg.side)).mul
          ((rotate cfg.direction (cfg.axis.scale cfg.side)).mul m))) = m := by
  obtain ⟨axis, side, dir⟩ := cfg
  obtain ⟨ha, hs, hd⟩ := h
  simp only at ha hs hd
  obtain ⟨⟨a0, a1, a2, a3⟩, ⟨b0, b1, b2, b3⟩, ⟨c0, c1, c2, c3⟩, ⟨d0, d1, d2, d3⟩⟩ := m
  rcases ha with rfl | rfl | rfl <;> rcases hs with rfl | rfl <;> rcases hd with rfl | rfl <;>
    simp [rotate, normalize, dot, Vec3.scale, cosQuarter, sinQuarter, Mat4.mul, Mat4.mulVec,
      Vec4.scale, Vec4.add, sqrt_one]

/-- A quarter turn about the axis of a legal command keeps every sub-cube on
its side of the layer test. -/
theorem isRotating_rotate (cfg : RotationConfig) (h : Legal cfg) (k : ℤ) (hk : k = 1 ∨ k = -1)
    (spacing : ℚ) (cube : Cube) :
    isRotating spacing cfg.axis cfg.side
      { cube with model := (rotate k (cfg.axis.scale cfg.side)).mul cube.model } =
    isRotating spacing cfg.axis cfg.side cube := by
  obtain ⟨axis, side, dir⟩ := cfg
  obtain ⟨ha, hs, -⟩ := h
  simp only at ha hs
  obtain ⟨⟨⟨a0, a1, a2, a3⟩, ⟨b0, b1, b2, b3⟩, ⟨c0, c1, c2, c3⟩, ⟨d0, d1, d2, d3⟩⟩, mask⟩ := cube
  rcases ha with rfl | rfl | rfl <;> rcases hs with rfl | rfl <;> rcases hk with rfl | rfl <;>
    simp [isRotating, rotate, normalize, dot, Vec3.scale, cosQuarter, sinQuarter, Mat4.mul,
      Mat4.mulVec, Vec4.scale, Vec4.add, Vec4.xyz, sqrt_one]

theorem legal_inverse {cfg : RotationConfig} (h : Legal cfg) : Legal cfg.inverse := by
  obtain ⟨ha, hs, hd⟩ := h
  refine ⟨ha, hs, ?_⟩
  rcases hd with hd | hd <;> simp [RotationConfig.inverse, hd]

theorem isRotating_commitCube (spacing : ℚ) (cfg : RotationConfig) (h : Legal cfg)
    (cube : Cube) :
    isRotating spacing cfg.axis cfg.side (commitCube spacing cfg cube) =
      isRotating spacing cfg.axis cfg.side cube := by
  unfold commitCube
  cases hc : isRotating spacing cfg.axis cfg.side cube
  · simp [hc]
  · simp only [if_true]
    rw [isRotating_rotate cfg h cfg.direction h.2.2 spacing cube, hc]

theorem commitCube_of_rotating (spacing : ℚ) (cfg : RotationConfig) (cube : Cube)
    (hc : isRotating spacing cfg.axis cfg.side cube = true) :
    commitCube spacing cfg cube =
      { cube with model := (rotate cfg.direction (cfg.axis.scale cfg.side)).mul cube.model } := by
  simp [commitCube, hc]

theorem commitCube_of_not_rotating (spacing : ℚ) (cfg : RotationConfig) (cube : Cube)
    (hc : isRotating spacing cfg.axis cfg.side cube = false) :
    commitCube spacing cfg cube = cube := by
  simp [commitCube, hc]

/-- Committing a legal rotation and then its inverse restores a sub-cube. -/
theorem commitCube_inverse (spacing : ℚ) (cfg : RotationConfig) (h : Legal cfg) (cube : Cube) :
    commitCube spacing cfg.inverse (commitCube spacing cfg cube) = cube := by
  have hr := isRotating_commitCube spacing cfg h cube
  cases hc : isRotating spacing cfg.axis cfg.side cube
  · rw [commitCube_of_not_rotating spacing cfg cube hc]
    exact commitCube_of_not_rotating spacing cfg.inverse cube hc
  · rw [hc] at hr
    rw [commitCube_of_rotating spacing cfg.inverse _ hr, commitCube_of_rotating spacing cfg cube hc]
    have := rotate_mul_inverse cfg h cube.model
    simp only [RotationConfig.inverse]
    rw [this]

/-- Committing the same legal rotation four times restores a sub-cube. -/
theorem commitCube_four (spacing : ℚ) (cfg : RotationConfig) (h : Legal cfg) (cube : Cube) :
    commitCube spacing cfg (commitCube spacing cfg
      (commitCube spacing cfg (commitCube spacing cfg cube))) = cube := by
  have hr := fun c => isRotating_commitCube spacing cfg h c
  cases hc : isRotating spacing cfg.axis cfg.side cube
  · simp only [commitCube_of_not_rotating spacing cfg cube hc]
  · have h1 := hr cube
    have h2 := hr (commitCube spacing cfg cube)
    have h3 := hr (commitCube spacing cfg (commitCube spacing cfg cube))
    rw [hc] at h1
    rw [h1] at h2
    rw [h2] at h3
    rw [commitCube_of_rotating spacing cfg _ h3, commitCube_of_rotating spacing cfg _ h2,
      commitCube_of_rotating spacing cfg _ h1, commitCube_of_rotating spacing cfg _ hc]
    have := rotate_mul_four cfg h cube.model
    simp only
    rw [this]

theorem commitCubes_inverse (spacing : ℚ) (cfg : RotationConfig) (h : Legal cfg)
    (cubes : List Cube) :
    commitCubes spacing cfg.inverse (commitCubes spacing cfg cubes) = cubes := by
  unfold commitCubes
  rw [List.map_map]
  conv_rhs => rw [← List.map_id cubes]
  apply List.map_congr_left
  intro cube _
  exact commitCube_inverse spacing cfg h cube

theorem commitCubes_four (spacing : ℚ) (cfg : RotationConfig) (h : Legal cfg)
    (cubes : List Cube) :
    commitCubes spacing cfg (commitCubes spacing cfg
      (commitCubes spacing cfg (commitCubes spacing cfg cubes))) = cubes := by
  unfold commitCubes
  rw [List.map_map, List.map_map, List.map_map]
  conv_rhs => rw [← List.map_id cubes]
  apply List.map_congr_left
  intro cube _
  exact commitCube_four spacing cfg h cube

/-! ## The rotation state machine -/

/-- Idle with an empty queue: `update` only resets the speed. -/
theorem update_idle_nil (s : RubiksCube) (dt : ℚ) (ha : s.m_isAnimating = false)
    (hq : s.m_moveQueue = []) : update s dt = { s with m_rotationSpeed := 200 } := by
  simp [update, advance, beginFrame, ha, hq]

/-- Idle with a queued command that completes within this call. -/
theorem update_idle_commit (s : RubiksCube) (dt : ℚ) (c : RotationConfig)
    (q : List RotationConfig) (ha : s.m_isAnimating = false) (hq : s.m_moveQueue = c :: q)
    (hc : m_targetAngle ≤ 400 * dt) :
    update s dt =
      { s with
        m_moveQueue := q
        m_rotationAxis := c.axis
        m_rotationDirection := c.direction
        m_rotationSide := c.side
        m_rotationSpeed := 400
        m_cubes := commitCubes s.m_cubeSpacing c s.m_cubes
        m_isAnimating := false
        m_currentAngle := 0 } := by
  simp [update, advance, beginFrame, ha, hq, hc]

/-- Idle with a queued command that does not complete within this call. -/
theorem update_idle_start (s : RubiksCube) (dt : ℚ) (c : RotationConfig)
    (q : List RotationConfig) (ha : s.m_isAnimating = false) (hq : s.m_moveQueue = c :: q)
    (hc : ¬ m_targetAngle ≤ 400 * dt) :
    update s dt =
      { s with
        m_moveQueue := q
        m_rotationAxis := c.axis
        m_rotationDirection := c.direction
        m_rotationSide := c.side
        m_rotationSpeed := 400
        m_isAnimating := true
        m_currentAngle := 400 * dt } := by
  simp [update, advance, beginFrame, ha, hq, hc]

/-- Animating, and the angle reaches 90 degrees in this call. -/
theorem update_anim_commit (s : RubiksCube) (dt : ℚ) (ha : s.m_isAnimating = true)
    (hc : m_targetAngle ≤ s.m_currentAngle + s.m_rotationSpeed * dt) :
    update s dt =
      { s with
        m_cubes := commitCubes s.m_cubeSpacing (activeConfig s) s.m_cubes
        m_isAnimating := false
        m_currentAngle := 0 } := by
  simp [update, advance, beginFrame, activeConfig, ha, hc]

/-- Animating, and the angle stays below 90 degrees in this call. -/
theorem update_anim_continue (s : RubiksCube) (dt : ℚ) (ha : s.m_isAnimating = true)
    (hc : ¬ m_targetAngle ≤ s.m_currentAngle + s.m_rotationSpeed * dt) :
    update s dt = { s with m_currentAngle := s.m_currentAngle + s.m_rotationSpeed * dt } := by
  simp [update, advance, beginFrame, ha, hc]

/-- The five cases of `update`. -/
theorem update_cases (s : RubiksCube) (dt : ℚ) :
    (s.m_isAnimating = false ∧ s.m_moveQueue = [] ∧
      update s dt = { s with m_rotationSpeed := 200 }) ∨
    (∃ c q, s.m_isAnimating = false ∧ s.m_moveQueue = c :: q ∧ m_targetAngle ≤ 400 * dt ∧
      update s dt =
        { s with
          m_moveQueue := q
          m_rotationAxis := c.axis
          m_rotationDirection := c.direction
          m_rotationSide := c.side
          m_rotationSpeed := 400
          m_cubes := commitCubes s.m_cubeSpacing c s.m_cubes
          m_isAnimating := false
          m_currentAngle := 0 }) ∨
    (∃ c q, s.m_isAnimating = false ∧ s.m_moveQueue = c :: q ∧ ¬ m_targetAngle ≤ 400 * dt ∧
      update s dt =
        { s with
          m_moveQueue := q
          m_rotationAxis := c.axis
          m_rotationDirection := c.direction
          m_rotationSide := c.side
          m_rotationSpeed := 400
          m_isAnimating := true
          m_currentAngle := 400 * dt }) ∨
    (s.m_isAnimating = true ∧ m_targetAngle ≤ s.m_currentAngle + s.m_rotationSpeed * dt ∧
      update s dt =
        { s with
          m_cubes := commitCubes s.m_cubeSpacing (activeConfig s) s.m_cubes
          m_isAnimating := false
          m_currentAngle := 0 }) ∨
    (s.m_isAnimating = true ∧ ¬ m_targetAngle ≤ s.m_currentAngle + s.m_rotationSpeed * dt ∧
      update s dt = { s with m_currentAngle := s.m_currentAngle + s.m_rotationSpeed * dt }) := by
  rcases Bool.eq_false_or_eq_true s.m_isAnimating with ha | ha
  · by_cases hc : m_targetAngle ≤ s.m_currentAngle + s.m_rotationSpeed * dt
    · exact Or.inr (Or.inr (Or.inr (Or.inl ⟨ha, hc, update_anim_commit s dt ha hc⟩)))
    · exact Or.inr (Or.inr (Or.inr (Or.inr ⟨ha, hc, update_anim_continue s dt ha hc⟩)))
  · by_cases hq : s.m_moveQueue = []
    · exact Or.inl ⟨ha, hq, update_idle_nil s dt ha hq⟩
    · obtain ⟨c, q, hq⟩ := List.exists_cons_of_ne_nil hq
      by_cases hc : m_targetAngle ≤ 400 * dt
      · exact Or.inr (Or.inl ⟨c, q, ha, hq, hc, update_idle_commit s dt c q ha hq hc⟩)
      · exact Or.inr (Or.inr (Or.inl ⟨c, q, ha, hq, hc, update_idle_start s dt c q ha hq hc⟩))

theorem update_spacing (s : RubiksCube) (dt : ℚ) :
    (update s dt).m_cubeSpacing = s.m_cubeSpacing := by
  rcases update_cases s dt with ⟨-, -, h⟩ | ⟨c, q, -, -, -, h⟩ | ⟨c, q, -, -, -, h⟩ |
    ⟨-, -, h⟩ | ⟨-, -, h⟩ <;> rw [h]

theorem update_shuffleSteps (s : RubiksCube) (dt : ℚ) :
    (update s dt).m_shuffleSteps = s.m_shuffleSteps := by
  rcases update_cases s dt with ⟨-, -, h⟩ | ⟨c, q, -, -, -, h⟩ | ⟨c, q, -, -, -, h⟩ |
    ⟨-, -, h⟩ | ⟨-, -, h⟩ <;> rw [h]

theorem update_pending (s : RubiksCube) (dt : ℚ) :
    (commitOf s dt).toList ++ pending (update s dt) = pending s ∧
    (update s dt).m_cubes = commitAll s.m_cubeSpacing (commitOf s dt).toList s.m_cubes := by
  cases ha : s.m_isAnimating
  · cases hq : s.m_moveQueue with
    | nil => simp [update, advance, beginFrame, commitOf, pending, commitAll, activeConfig, ha, hq]
    | cons c q =>
      by_cases hc : m_targetAngle ≤ 400 * dt
      · simp [update, advance, beginFrame, commitOf, pending, commitAll, activeConfig, ha, hq, hc]
      · simp [update, advance, beginFrame, commitOf, pending, commitAll, activeConfig, ha, hq, hc]
  · by_cases hc : m_targetAngle ≤ s.m_currentAngle + s.m_rotationSpeed * dt
    · simp [update, advance, beginFrame, commitOf, pending, commitAll, activeConfig, ha, hc]
    · simp [update, advance, beginFrame, commitOf, pending, commitAll, activeConfig, ha, hc]

/-- Every call of `update` with a time step of at least `dtMin`, on an engine
that still has a rotation to commit, reduces the turning still ahead by at
least one frame step. -/
theorem update_workLeft (vmin dtMin : ℚ) (hv : 0 < vmin) (hv2 : vmin ≤ 400) (hd : 0 < dtMin)
    (s : RubiksCube) (dt : ℚ) (hdt : dtMin ≤ dt)
    (hs : s.m_isAnimating = true → vmin ≤ s.m_rotationSpeed) :
    ((update s dt).m_isAnimating = true → vmin ≤ (update s dt).m_rotationSpeed) ∧
    (pending s ≠ [] →
      workLeft (vmin * dtMin) (update s dt) + vmin * dtMin ≤ workLeft (vmin * dtMin) s) ∧
    (pending s = [] → pending (update s dt) = []) := by
  have heps : 0 < vmin * dtMin := mul_pos hv hd
  have h400 : vmin * dtMin ≤ 400 * dt := mul_le_mul (by linarith) hdt hd.le (by norm_num)
  rcases update_cases s dt with ⟨ha, hq, h⟩ | ⟨c, q, ha, hq, hc, h⟩ | ⟨c, q, ha, hq, hc, h⟩ |
    ⟨ha, hc, h⟩ | ⟨ha, hc, h⟩ <;> rw [h] <;> (try simp only [m_targetAngle] at hc)
  · simp [pending, ha, hq]
  · simp only [pending, workLeft, ha, hq, m_targetAngle]
    simp
    nlinarith
  · simp only [pending, workLeft, ha, hq, m_targetAngle]
    simp
    refine ⟨by linarith, ?_⟩
    rw [max_eq_left (by linarith)]
    nlinarith
  · simp only [pending, workLeft, ha, m_targetAngle]
    simp
    have := le_max_right (90 - s.m_currentAngle) 0
    linarith
  · have hstep : vmin * dtMin ≤ s.m_rotationSpeed * dt :=
      mul_le_mul (hs ha) hdt hd.le (le_trans hv.le (hs ha))
    simp only [pending, workLeft, ha, m_targetAngle]
    simp
    refine ⟨hs ha, ?_⟩
    have := le_max_left (90 - s.m_currentAngle) 0
    rw [max_eq_left (by linarith)]
    linarith

theorem update_speed_ge (vmin : ℚ) (hv2 : vmin ≤ 200) (s : RubiksCube) (dt : ℚ)
    (hs : vmin ≤ s.m_rotationSpeed) : vmin ≤ (update s dt).m_rotationSpeed := by
  rcases update_cases s dt with ⟨ha, hq, h⟩ | ⟨c, q, ha, hq, hc, h⟩ | ⟨c, q, ha, hq, hc, h⟩ |
    ⟨ha, hc, h⟩ | ⟨ha, hc, h⟩ <;> rw [h] <;> simp <;> linarith

theorem updates_speed_ge (vmin : ℚ) (hv2 : vmin ≤ 200) (l : List ℚ) :
    ∀ s : RubiksCube, vmin ≤ s.m_rotationSpeed → vmin ≤ (updates s l).m_rotationSpeed := by
  induction l with
  | nil => intro s hs; exact hs
  | cons d l ih => intro s hs; exact ih (update s d) (update_speed_ge vmin hv2 s d hs)

theorem pending_eq_nil (s : RubiksCube) :
    pending s = [] ↔ s.m_isAnimating = false ∧ s.m_moveQueue = [] := by
  unfold pending
  cases s.m_isAnimating <;> simp

theorem workLeft_of_pending_nil (eps : ℚ) (s : RubiksCube) (h : pending s = []) :
    workLeft eps s = 0 := by
  obtain ⟨ha, hq⟩ := (pending_eq_nil s).1 h
  simp [workLeft, ha, hq]

theorem workLeft_pos (eps : ℚ) (heps : 0 < eps) (s : RubiksCube) (h : pending s ≠ []) :
    0 < workLeft eps s := by
  have hq : (0 : ℚ) ≤ s.m_moveQueue.length * (m_targetAngle + eps) := by
    have : (0 : ℚ) ≤ s.m_moveQueue.length := Nat.cast_nonneg _
    have : (0 : ℚ) ≤ m_targetAngle + eps := by simp only [m_targetAngle]; linarith
    positivity
  rcases Bool.eq_false_or_eq_true s.m_isAnimating with ha | ha
  · have := le_max_right (m_targetAngle - s.m_currentAngle) 0
    simp only [workLeft, ha, if_true]
    linarith
  · have hne : s.m_moveQueue ≠ [] := fun hq => h ((pending_eq_nil s).2 ⟨ha, hq⟩)
    have hlen : (1 : ℚ) ≤ s.m_moveQueue.length := by
      exact_mod_cast List.length_pos.2 hne
    simp only [workLeft, ha, m_targetAngle]
    simp only [Bool.false_eq_true, if_false, zero_add]
    nlinarith

theorem commitAll_append (spacing : ℚ) (a b : List RotationConfig) (cubes : List Cube) :
    commitAll spacing (a ++ b) cubes = commitAll spacing b (commitAll spacing a cubes) := by
  simp [commitAll, List.foldl_append]

/-- Enough frames finish everything: when the frames given cover the turning
still ahead, the engine ends idle with an empty queue, having committed
exactly the pending rotations, in order. -/
theorem updates_drain (vmin dtMin : ℚ) (hv : 0 < vmin) (hv2 : vmin ≤ 400) (hd : 0 < dtMin) :
    ∀ (l : List ℚ) (s : RubiksCube), (∀ d ∈ l, dtMin ≤ d) →
      (s.m_isAnimating = true → vmin ≤ s.m_rotationSpeed) →
      workLeft (vmin * dtMin) s ≤ vmin * dtMin * l.length →
      (updates s l).m_isAnimating = false ∧ (updates s l).m_moveQueue = [] ∧
      (updates s l).m_cubes = commitAll s.m_cubeSpacing (pending s) s.m_cubes ∧
      commitLog s l = pending s ∧
      (updates s l).m_cubeSpacing = s.m_cubeSpacing ∧
      (updates s l).m_shuffleSteps = s.m_shuffleSteps := by
  have heps : 0 < vmin * dtMin := mul_pos hv hd
  intro l
  induction l with
  | nil =>
    intro s _ hs hw
    have hp : pending s = [] := by
      by_contra hne
      have := workLeft_pos _ heps s hne
      simp at hw
      linarith
    obtain ⟨ha, hq⟩ := (pending_eq_nil s).1 hp
    simp [updates, commitLog, hp, ha, hq, commitAll]
  | cons d l ih =>
    intro s hl hs hw
    have hdl : dtMin ≤ d := hl d (List.mem_cons_self _ _)
    obtain ⟨hp1, hp2⟩ := update_pending s d
    obtain ⟨hw1, hw2, hw3⟩ := update_workLeft vmin dtMin hv hv2 hd s d hdl hs
    have hwork : workLeft (vmin * dtMin) (update s d) ≤ vmin * dtMin * l.length := by
      by_cases hp : pending s = []
      · rw [workLeft_of_pending_nil _ _ (hw3 hp)]
        positivity
      · have := hw2 hp
        simp only [List.length_cons, Nat.cast_add, Nat.cast_one] at hw
        linarith
    obtain ⟨i1, i2, i3, i4, i5, i6⟩ :=
      ih (update s d) (fun x hx => hl x (List.mem_cons_of_mem _ hx)) hw1 hwork
    have hupd : updates s (d :: l) = updates (update s d) l := rfl
    rw [hupd]
    refine ⟨i1, i2, ?_, ?_, ?_, ?_⟩
    · rw [i3, hp2, update_spacing, ← commitAll_append, hp1]
    · simp only [commitLog]
      rw [i4, hp1]
    · rw [i5, update_spacing]
    · rw [i6, update_shuffleSteps]

theorem framesFor_spec (v dtMin : ℚ) (hv : 0 < v) (hd : 0 < dtMin) :
    m_targetAngle + v * dtMin ≤ v * dtMin * framesFor v dtMin := by
  have heps : 0 < v * dtMin := mul_pos hv hd
  have h := Nat.le_ceil (m_targetAngle / (v * dtMin))
  have h2 : m_targetAngle ≤ v * dtMin * (⌈m_targetAngle / (v * dtMin)⌉₊ : ℚ) := by
    have := mul_le_mul_of_nonneg_left h heps.le
    rwa [mul_div_cancel₀ _ heps.ne'] at this
  simp only [framesFor, Nat.cast_add, Nat.cast_one]
  linarith

/-- The turning ahead of an engine is covered by `framesFor` frames for each
pending rotation. -/
theorem workLeft_le (v dtMin : ℚ) (hv : 0 < v) (hd : 0 < dtMin) (s : RubiksCube)
    (hangle : s.m_isAnimating = true → 0 ≤ s.m_currentAngle) :
    workLeft (v * dtMin) s ≤ v * dtMin * ((pending s).length * framesFor v dtMin : ℕ) := by
  have heps : 0 < v * dtMin := mul_pos hv hd
  have hf := framesFor_spec v dtMin hv hd
  have hq : (0 : ℚ) ≤ s.m_moveQueue.length := Nat.cast_nonneg _
  rcases Bool.eq_false_or_eq_true s.m_isAnimating with ha | ha
  · have h0 := hangle ha
    have hmax : max (m_targetAngle - s.m_currentAngle) 0 ≤ m_targetAngle := by
      apply max_le <;> simp only [m_targetAngle] <;> linarith
    simp only [workLeft, pending, ha, if_true, List.length_append, List.length_singleton,
      Nat.cast_mul, Nat.cast_add, Nat.cast_one]
    nlinarith
  · simp only [workLeft, pending, ha, Bool.false_eq_true, if_false, List.nil_append,
      Nat.cast_mul, zero_add]
    nlinarith

/-- Enough frames finish everything, with the bound in frames: `framesFor`
frames for each pending rotation. -/
theorem updates_settle (vmin dtMin : ℚ) (hv : 0 < vmin) (hv2 : vmin ≤ 400) (hd : 0 < dtMin)
    (s : RubiksCube) (l : List ℚ) (hl : ∀ d ∈ l, dtMin ≤ d)
    (hs : s.m_isAnimating = true → vmin ≤ s.m_rotationSpeed ∧ 0 ≤ s.m_currentAngle)
    (hn : (pending s).length * framesFor vmin dtMin ≤ l.length) :
    (updates s l).m_isAnimating = false ∧ (updates s l).m_moveQueue = [] ∧
    (updates s l).m_cubes = commitAll s.m_cubeSpacing (pending s) s.m_cubes ∧
    commitLog s l = pending s ∧
    (updates s l).m_cubeSpacing = s.m_cubeSpacing ∧
    (updates s l).m_shuffleSteps = s.m_shuffleSteps := by
  apply updates_drain vmin dtMin hv hv2 hd l s hl (fun ha => (hs ha).1)
  have h1 := workLeft_le vmin dtMin hv hd s (fun ha => (hs ha).2)
  have h2 : ((( pending s).length * framesFor vmin dtMin : ℕ) : ℚ) ≤ (l.length : ℚ) := by
    exact_mod_cast hn
  have heps : 0 < vmin * dtMin := mul_pos hv hd
  have := mul_le_mul_of_nonneg_left h2 heps.le
  linarith

/-! ## The lattice picture: relation to the engine -/

theorem mem_allTurns (t : Turn) :
    t ∈ allTurns ↔ (t.side = 1 ∨ t.side = -1) ∧ (t.direction = 1 ∨ t.direction = -1) := by
  constructor
  · exact (by decide : ∀ t ∈ allTurns,
      (t.side = 1 ∨ t.side = -1) ∧ (t.direction = 1 ∨ t.direction = -1)) t
  · obtain ⟨a, s, d⟩ := t
    rintro ⟨hs, hd⟩
    simp only at hs hd
    fin_cases a <;> rcases hs with rfl | rfl <;> rcases hd with rfl | rfl <;> decide

theorem legal_turn (t : Turn) (ht : t ∈ allTurns) : Legal t.cfg := by
  obtain ⟨hs, hd⟩ := (mem_allTurns t).1 ht
  refine ⟨?_, hs, hd⟩
  obtain ⟨a, s, d⟩ := t
  fin_cases a <;> simp [Turn.cfg, Turn.vec]

theorem legal_iff_turn (cfg : RotationConfig) : Legal cfg ↔ ∃ t ∈ allTurns, t.cfg = cfg := by
  constructor
  · rintro ⟨ha, hs, hd⟩
    obtain ⟨axis, side, dir⟩ := cfg
    simp only at ha hs hd
    rcases ha with rfl | rfl | rfl
    · exact ⟨⟨0, side, dir⟩, (mem_allTurns _).2 ⟨hs, hd⟩, by simp [Turn.cfg, Turn.vec]⟩
    · exact ⟨⟨1, side, dir⟩, (mem_allTurns _).2 ⟨hs, hd⟩, by simp [Turn.cfg, Turn.vec]⟩
    · exact ⟨⟨2, side, dir⟩, (mem_allTurns _).2 ⟨hs, hd⟩, by simp [Turn.cfg, Turn.vec]⟩
  · rintro ⟨t, ht, rfl⟩
    exact legal_turn t ht

theorem layer_test (sp : ℚ) (h : 1 / 10 < sp) (p side : ℤ) (hp : p = -1 ∨ p = 0 ∨ p = 1)
    (hs : side = 1 ∨ side = -1) : |(p : ℚ) * sp - side * sp| < 1 / 10 ↔ p = side := by
  rcases hp with rfl | rfl | rfl <;> rcases hs with rfl | rfl <;> simp [abs_lt] <;>
    intros <;> linarith

theorem dot_toCube (sp : ℚ) (t : Turn) (c : LatticeCube) :
    dot (c.toCube sp).model.c3.xyz t.vec = ((c.pos.dot t.ivec : ℤ) : ℚ) * sp := by
  obtain ⟨a, s, d⟩ := t
  fin_cases a <;>
    simp [dot, LatticeCube.toCube, Vec4.xyz, Turn.vec, Turn.ivec, IVec3.dot]

theorem dot_ivec_inGrid (t : Turn) (p : IVec3) (hp : p.InGrid) :
    p.dot t.ivec = -1 ∨ p.dot t.ivec = 0 ∨ p.dot t.ivec = 1 := by
  obtain ⟨a, s, d⟩ := t
  obtain ⟨hx, hy, hz⟩ := hp
  fin_cases a <;> simp [Turn.ivec, IVec3.dot] <;> assumption

theorem isRotating_toCube (sp : ℚ) (h : 1 / 10 < sp) (t : Turn) (ht : t ∈ allTurns)
    (c : LatticeCube) (hc : c.pos.InGrid) :
    isRotating sp t.vec t.side (c.toCube sp) = decide (c.pos.dot t.ivec = t.side) := by
  unfold isRotating
  rw [dot_toCube]
  exact decide_eq_decide.2
    (layer_test sp h _ _ (dot_ivec_inGrid t c.pos hc) ((mem_allTurns t).1 ht).1)

theorem rotate_turn (t : Turn) (ht : t ∈ allTurns) :
    rotate t.direction (t.vec.scale t.side) = t.matrix.toMat4 := by
  obtain ⟨hs, hd⟩ := (mem_allTurns t).1 ht
  obtain ⟨a, s, d⟩ := t
  simp only at hs hd
  fin_cases a <;> rcases hs with rfl | rfl <;> rcases hd with rfl | rfl <;>
    simp [rotate, normalize, dot, Vec3.scale, cosQuarter, sinQuarter, sqrt_one, Turn.vec,
      Turn.ivec, Turn.matrix, IMat3.toMat4]

theorem toMat4_mul_toCube (sp : ℚ) (m : IMat3) (c : LatticeCube) :
    m.toMat4.mul (c.toCube sp).model =
      (LatticeCube.toCube sp { c with rot := m.mul c.rot }).model := by
  simp [Mat4.mul, Mat4.mulVec, Vec4.scale, Vec4.add, LatticeCube.toCube, IMat3.toMat4,
    IMat3.mul, IMat3.mulVec, LatticeCube.pos]
  refine ⟨?_, ?_, ?_⟩ <;> ring

/-- Committing a legal turn on a settled sub-cube is the lattice turn. -/
theorem commitCube_toCube (sp : ℚ) (h : 1 / 10 < sp) (t : Turn) (ht : t ∈ allTurns)
    (c : LatticeCube) (hc : c.pos.InGrid) :
    commitCube sp t.cfg (c.toCube sp) = (c.turn t).toCube sp := by
  have hr := isRotating_toCube sp h t ht c hc
  unfold commitCube LatticeCube.turn
  simp only [Turn.cfg]
  rw [hr, rotate_turn t ht, toMat4_mul_toCube]
  by_cases hd : c.pos.dot t.ivec = t.side
  · simp [hd, LatticeCube.toCube]
  · simp [hd]

theorem cround_intCast (p : ℤ) : cround (p : ℚ) = p := by
  have h1 : ⌊(p : ℚ) + 1 / 2⌋ = p := by
    rw [Int.floor_eq_iff]
    constructor <;> linarith
  have h2 : ⌊-(p : ℚ) + 1 / 2⌋ = -p := by
    rw [Int.floor_eq_iff]
    push_cast
    constructor <;> linarith
  unfold cround
  split_ifs
  · exact h1
  · rw [h2]; ring

theorem cround_mul_div (sp : ℚ) (h : sp ≠ 0) (p : ℤ) : cround ((p : ℚ) * sp / sp) = p := by
  rw [mul_div_assoc, div_self h, mul_one, cround_intCast]

theorem nine_tenths_lt (k : ℤ) : (9 / 10 : ℚ) < k ↔ 1 ≤ k := by
  constructor
  · intro h
    by_contra hk
    have : k ≤ 0 := by omega
    have : (k : ℚ) ≤ 0 := by exact_mod_cast this
    linarith
  · intro h
    have : (1 : ℚ) ≤ k := by exact_mod_cast h
    linarith

theorem nine_tenths_lt_neg (k : ℤ) : (9 / 10 : ℚ) < -k ↔ k ≤ -1 := by
  have := nine_tenths_lt (-k)
  push_cast at this
  rw [this]
  omega

theorem classify_cast (n : IVec3) (x y z : ℤ) (color : Color) :
    classify ⟨n.x, n.y, n.z⟩ x y z color = classifyI n x y z color := by
  simp [classify, classifyI, dot, nine_tenths_lt, nine_tenths_lt_neg]

theorem mulVec_localNormals (sp : ℚ) (c : LatticeCube) (i : ℕ) :
    (c.toCube sp).model.toMat3.mulVec (localNormals i) =
      ⟨(c.rot.mulVec (localNormalsI i)).x, (c.rot.mulVec (localNormalsI i)).y,
        (c.rot.mulVec (localNormalsI i)).z⟩ := by
  rcases i with _ | _ | _ | _ | _ | _ | i <;>
    simp [LatticeCube.toCube, Mat4.toMat3, Vec4.xyz, Mat3.mulVec, localNormals, localNormalsI,
      IMat3.mulVec]

/-- The assignments of `getCubeState` for a settled sub-cube are those of the
lattice picture. -/
theorem cubeWrites_toCube (sp : ℚ) (h : sp ≠ 0) (c : LatticeCube) :
    cubeWrites sp (c.toCube sp) = c.writes := by
  unfold cubeWrites LatticeCube.writes
  apply List.filterMap_congr
  intro i _
  rw [mulVec_localNormals, classify_cast]
  simp only [LatticeCube.toCube, cround_mul_div sp h]

theorem initCube_eq (sp : ℚ) (x y z : ℤ) :
    initCube sp x y z = LatticeCube.toCube sp ⟨IMat3.identity, ⟨x, y, z⟩⟩ := by
  simp [initCube, translate, Mat4.identity, Vec4.scale, Vec4.add, LatticeCube.toCube,
    IMat3.identity, LatticeCube.pos, IMat3.mulVec]

theorem init_cubes (s : RubiksCube) :
    (init s).m_cubes = s.m_cubes ++ latticeInit.map (LatticeCube.toCube s.m_cubeSpacing) := by
  simp [init, latticeInit, gridPoints, gridRange, initCube_eq]

--THEOREMS
/-! ## The lattice invariant -/

theorem turn_matrix_closed :
    ∀ t ∈ allTurns, ∀ r ∈ signedPerms, t.matrix.mul r ∈ signedPerms := by decide!

theorem turn_move_perm : ∀ t ∈ allTurns, (gridPoints.map t.move).Perm gridPoints := by decide!

theorem gridPoints_inGrid : ∀ p ∈ gridPoints, p.InGrid := by decide

theorem latticeInit_ok : LatticeOK latticeInit := by
  refine ⟨by decide, ?_⟩
  have : latticeInit.map LatticeCube.pos = gridPoints := by decide
  rw [this]

theorem mulVec_mul (a b : IMat3) (v : IVec3) : (a.mul b).mulVec v = a.mulVec (b.mulVec v) := by
  simp [IMat3.mul, IMat3.mulVec]
  refine ⟨?_, ?_, ?_⟩ <;> ring

theorem pos_turn (t : Turn) (c : LatticeCube) : (c.turn t).pos = t.move c.pos := by
  unfold LatticeCube.turn Turn.move
  by_cases h : c.pos.dot t.ivec = t.side
  · rw [if_pos h, if_pos h]
    simp only [LatticeCube.pos, mulVec_mul]
  · rw [if_neg h, if_neg h]

theorem latticeOK_pos_inGrid {cs : List LatticeCube} (h : LatticeOK cs) :
    ∀ c ∈ cs, c.pos.InGrid := by
  intro c hc
  apply gridPoints_inGrid
  exact h.2.subset (List.mem_map_of_mem _ hc)

/-- A legal turn keeps the lattice filled. -/
theorem latticeOK_turn (t : Turn) (ht : t ∈ allTurns) {cs : List LatticeCube}
    (h : LatticeOK cs) : LatticeOK (cs.map (LatticeCube.turn t)) := by
  refine ⟨?_, ?_⟩
  · intro c hc
    obtain ⟨c0, hc0, rfl⟩ := List.mem_map.1 hc
    obtain ⟨hr, hh⟩ := h.1 c0 hc0
    unfold LatticeCube.turn
    split_ifs
    · exact ⟨turn_matrix_closed t ht _ hr, hh⟩
    · exact ⟨hr, hh⟩
  · rw [List.map_map]
    have : (LatticeCube.pos ∘ LatticeCube.turn t) = t.move ∘ LatticeCube.pos := by
      funext c
      exact pos_turn t c
    rw [this, ← List.map_map]
    exact (h.2.map t.move).trans (turn_move_perm t ht)

theorem commitCubes_toCube (sp : ℚ) (hsp : 1 / 10 < sp) (t : Turn) (ht : t ∈ allTurns)
    {cs : List LatticeCube} (h : LatticeOK cs) :
    commitCubes sp t.cfg (cs.map (LatticeCube.toCube sp)) =
      (cs.map (LatticeCube.turn t)).map (LatticeCube.toCube sp) := by
  unfold commitCubes
  rw [List.map_map, List.map_map]
  apply List.map_congr_left
  intro c hc
  exact commitCube_toCube sp hsp t ht c (latticeOK_pos_inGrid h c hc)

/-- A committed legal rotation keeps the sub-cubes settled. -/
theorem settled_commit (sp : ℚ) (hsp : 1 / 10 < sp) (cfg : RotationConfig) (hl : Legal cfg)
    {cubes : List Cube} (h : Settled sp cubes) : Settled sp (commitCubes sp cfg cubes) := by
  obtain ⟨t, ht, rfl⟩ := (legal_iff_turn cfg).1 hl
  obtain ⟨cs, rfl, hcs⟩ := h
  exact ⟨cs.map (LatticeCube.turn t), commitCubes_toCube sp hsp t ht hcs, latticeOK_turn t ht hcs⟩

theorem settled_init (v sp : ℚ) (n : ℤ) : Settled sp (init (RubiksCube.new v sp n)).m_cubes := by
  refine ⟨latticeInit, ?_, latticeInit_ok⟩
  rw [init_cubes]
  simp [RubiksCube.new]

/-! ## Shuffle -/

theorem legal_shuffleConfig (r0 r1 r2 : ℕ) : Legal (shuffleConfig r0 r1 r2) := by
  unfold shuffleConfig Legal
  refine ⟨?_, ?_, ?_⟩
  · simp only; split_ifs <;> simp
  · simp only; split_ifs <;> simp
  · simp only; split_ifs <;> simp

theorem legal_shuffleDraws (rnd : ℕ → ℕ) (n : ℕ) :
    ∀ i, ∀ c ∈ shuffleDraws rnd i n, Legal c := by
  induction n with
  | zero => intro i c hc; simp [shuffleDraws] at hc
  | succ n ih =>
    intro i c hc
    simp only [shuffleDraws, List.mem_cons] at hc
    rcases hc with rfl | hc
    · exact legal_shuffleConfig _ _ _
    · exact ih _ c hc

theorem length_shuffleDraws (rnd : ℕ → ℕ) (n : ℕ) : ∀ i, (shuffleDraws rnd i n).length = n := by
  induction n with
  | zero => intro i; rfl
  | succ n ih => intro i; simp [shuffleDraws, ih]

theorem addMoves_eq (cfgs : List RotationConfig) :
    ∀ s : RubiksCube, addMoves s cfgs = { s with m_moveQueue := s.m_moveQueue ++ cfgs } := by
  induction cfgs with
  | nil => intro s; simp [addMoves]
  | cons c cs ih =>
    intro s
    have : addMoves s (c :: cs) = addMoves (addMove s c) cs := rfl
    rw [this, ih]
    simp [addMove]

theorem shuffleLoop_eq (rnd : ℕ → ℕ) (n : ℕ) :
    ∀ (i : ℕ) (s : RubiksCube), shuffleLoop rnd i n s = addMoves s (shuffleDraws rnd i n) := by
  induction n with
  | zero => intro i s; rfl
  | succ n ih =>
    intro i s
    simp only [shuffleLoop, shuffleDraws]
    rw [ih]
    rfl

/-- The method `shuffle` appends its draws to the queue and changes nothing else. -/
theorem shuffle_eq (rnd : ℕ → ℕ) (s : RubiksCube) :
    shuffle rnd s =
      { s with m_moveQueue := s.m_moveQueue ++ shuffleDraws rnd 0 s.m_shuffleSteps.toNat } := by
  unfold shuffle
  rw [shuffleLoop_eq, addMoves_eq]

/-! ## The invariant of the engine -/

theorem engineOK_update (sp : ℚ) (hsp : 1 / 10 < sp) (s : RubiksCube) (dt : ℚ)
    (h : EngineOK sp s) : EngineOK sp (update s dt) := by
  obtain ⟨h1, h2, h3, h4⟩ := h
  rcases update_cases s dt with ⟨ha, hq, h⟩ | ⟨c, q, ha, hq, hc, h⟩ | ⟨c, q, ha, hq, hc, h⟩ |
    ⟨ha, hc, h⟩ | ⟨ha, hc, h⟩ <;> rw [h]
  · exact ⟨h1, h2, by simp [ha], h4⟩
  · have hc' : Legal c := h4 c (by simp [hq])
    refine ⟨h1, ?_, by simp, fun x hx => h4 x (by simp [hq, hx])⟩
    simp only
    rw [h1]
    exact settled_commit sp hsp c hc' h2
  · have hc' : Legal c := h4 c (by simp [hq])
    exact ⟨h1, h2, fun _ => hc', fun x hx => h4 x (by simp [hq, hx])⟩
  · refine ⟨h1, ?_, by simp, h4⟩
    simp only
    rw [h1]
    exact settled_commit sp hsp _ (h3 ha) h2
  · exact ⟨h1, h2, fun _ => h3 ha, h4⟩

/-- Every reachable engine state satisfies the invariant. -/
theorem reachable_ok (v sp : ℚ) (n : ℤ) (hsp : 1 / 10 < sp) (s : RubiksCube)
    (h : Reachable v sp n s) : EngineOK sp s := by
  induction h with
  | init =>
    exact ⟨rfl, settled_init v sp n, by simp [init, RubiksCube.new],
      by simp [init, RubiksCube.new]⟩
  | initRotation s cfg _ hl ih =>
    obtain ⟨h1, h2, _, h4⟩ := ih
    exact ⟨h1, h2, fun _ => hl, h4⟩
  | addMove s cfg _ hl ih =>
    obtain ⟨h1, h2, h3, h4⟩ := ih
    refine ⟨h1, h2, h3, ?_⟩
    intro c hc
    simp only [addMove, List.mem_append, List.mem_singleton] at hc
    rcases hc with hc | rfl
    · exact h4 c hc
    · exact hl
  | shuffle s rnd _ ih =>
    obtain ⟨h1, h2, h3, h4⟩ := ih
    rw [shuffle_eq]
    refine ⟨h1, h2, h3, ?_⟩
    intro c hc
    simp only [List.mem_append] at hc
    rcases hc with hc | hc
    · exact h4 c hc
    · exact legal_shuffleDraws rnd _ 0 c hc
  | update s dt _ ih => exact engineOK_update sp hsp s dt ih

/-! ## The read-out as a sequence of assignments -/

theorem write_some (st : CubeState) (w : CellWrite) (h : w.inBounds) :
    ∃ st1, st.write w = some st1 := by
  simp [CubeState.write, h]

theorem write_face (st st1 : CubeState) (w : CellWrite) (h : st.write w = some st1)
    (f : Face) (i j : Fin 3) :
    st1.face f i j = if w.cell = (f, (i : ℤ), (j : ℤ)) then w.color else st.face f i j := by
  unfold CubeState.write at h
  split_ifs at h with hb
  simp only [Option.some.injEq] at h
  subst h
  obtain ⟨wf, wr, wc, wcol⟩ := w
  cases wf <;> cases f <;> simp [CubeState.face, Grid.set, CellWrite.cell]

theorem writeAll_some (ws : List CellWrite) :
    ∀ st : CubeState, (∀ w ∈ ws, w.inBounds) → ∃ st1, st.writeAll ws = some st1 := by
  induction ws with
  | nil => intro st _; exact ⟨st, rfl⟩
  | cons w ws ih =>
    intro st h
    obtain ⟨st1, h1⟩ := write_some st w (h w (List.mem_cons_self _ _))
    obtain ⟨st2, h2⟩ := ih st1 (fun x hx => h x (List.mem_cons_of_mem _ hx))
    exact ⟨st2, by simp [CubeState.writeAll, h1, h2]⟩

/-- A cell no assignment writes keeps its colour. -/
theorem writeAll_untouched (ws : List CellWrite) (f : Face) (i j : Fin 3) :
    ∀ st st1 : CubeState, st.writeAll ws = some st1 →
      (∀ w ∈ ws, w.cell ≠ (f, (i : ℤ), (j : ℤ))) → st1.face f i j = st.face f i j := by
  induction ws with
  | nil =>
    intro st st1 h _
    simp only [CubeState.writeAll, Option.some.injEq] at h
    rw [h]
  | cons w ws ih =>
    intro st st1 h hn
    simp only [CubeState.writeAll] at h
    cases hw : st.write w with
    | none => simp [hw] at h
    | some st2 =>
      rw [hw] at h
      simp only [Option.some_bind] at h
      rw [ih st2 st1 h (fun x hx => hn x (List.mem_cons_of_mem _ hx)), write_face st st2 w hw,
        if_neg (hn w (List.mem_cons_self _ _))]

/-- A cell some assignment writes ends with the colour of one of the
assignments that write it. -/
theorem writeAll_touched (ws : List CellWrite) (f : Face) (i j : Fin 3) :
    ∀ st st1 : CubeState, st.writeAll ws = some st1 →
      (∃ w ∈ ws, w.cell = (f, (i : ℤ), (j : ℤ))) →
      ∃ w ∈ ws, w.cell = (f, (i : ℤ), (j : ℤ)) ∧ st1.face f i j = w.color := by
  induction ws with
  | nil => intro st st1 _ h; simp at h
  | cons w ws ih =>
    intro st st1 h hex
    simp only [CubeState.writeAll] at h
    cases hw : st.write w with
    | none => simp [hw] at h
    | some st2 =>
      rw [hw] at h
      simp only [Option.some_bind] at h
      by_cases hlater : ∃ x ∈ ws, x.cell = (f, (i : ℤ), (j : ℤ))
      · obtain ⟨x, hx, hx1, hx2⟩ := ih st2 st1 h hlater
        exact ⟨x, List.mem_cons_of_mem _ hx, hx1, hx2⟩
      · have hn : ∀ x ∈ ws, x.cell ≠ (f, (i : ℤ), (j : ℤ)) := by
          intro x hx hc
          exact hlater ⟨x, hx, hc⟩
        obtain ⟨x, hx, hxc⟩ := hex
        have hwc : w.cell = (f, (i : ℤ), (j : ℤ)) := by
          rcases List.mem_cons.1 hx with rfl | hx
          · exact hxc
          · exact absurd hxc (hn x hx)
        refine ⟨w, List.mem_cons_self _ _, hwc, ?_⟩
        rw [writeAll_untouched ws f i j st2 st1 h hn, write_face st st2 w hw, if_pos hwc]

/-! ## Coverage of the 54 cells -/

set_option maxHeartbeats 4000000 in
theorem writes_outward : ∀ r ∈ signedPerms, ∀ h ∈ gridPoints,
    (∀ w ∈ LatticeCube.writes ⟨r, h⟩, w.inBounds ∧ w.color ≠ .BLACK) ∧
    ((LatticeCube.writes ⟨r, h⟩).map CellWrite.cell).Perm
      (outwardCells (LatticeCube.pos ⟨r, h⟩)) := by decide!

theorem outwardCells_once :
    ∀ k ∈ allCells, (gridPoints.flatMap outwardCells).countP (fun c => decide (c = k)) = 1 := by
  decide!

theorem mem_allCells (f : Face) (i j : Fin 3) : (f, (i : ℤ), (j : ℤ)) ∈ allCells := by
  cases f <;> fin_cases i <;> fin_cases j <;> decide

/-- On a filled lattice the assignments of the read-out stay inside the
arrays, never write BLACK, and write each of the 54 cells exactly once. -/
theorem lattice_coverage {cs : List LatticeCube} (h : LatticeOK cs) :
    (∀ w ∈ cs.flatMap LatticeCube.writes, w.inBounds ∧ w.color ≠ .BLACK) ∧
    ∀ k ∈ allCells,
      (cs.flatMap LatticeCube.writes).countP (fun w => decide (w.cell = k)) = 1 := by
  constructor
  · intro w hw
    obtain ⟨c, hc, hwc⟩ := List.mem_flatMap.1 hw
    obtain ⟨hr, hh⟩ := h.1 c hc
    exact (writes_outward c.rot hr c.home hh).1 w hwc
  · intro k hk
    have hperm : ((cs.flatMap LatticeCube.writes).map CellWrite.cell).Perm
        (gridPoints.flatMap outwardCells) := by
      rw [List.map_flatMap]
      have h1 : (cs.flatMap fun c => (LatticeCube.writes c).map CellWrite.cell).Perm
          (cs.flatMap fun c => outwardCells c.pos) := by
        apply List.Perm.flatMap_left
        intro c hc
        obtain ⟨hr, hh⟩ := h.1 c hc
        exact (writes_outward c.rot hr c.home hh).2
      have h2 : (cs.flatMap fun c => outwardCells c.pos) =
          (cs.map LatticeCube.pos).flatMap outwardCells := by
        rw [List.flatMap_map]
      rw [h2] at h1
      exact h1.trans (h.2.flatMap_right outwardCells)
    have := hperm.countP_eq (fun c => decide (c = k))
    rw [List.countP_map] at this
    rw [← outwardCells_once k hk, ← this]
    rfl

theorem stateWrites_settled (s : RubiksCube) (hsp : s.m_cubeSpacing ≠ 0)
    (cs : List LatticeCube) (h : s.m_cubes = cs.map (LatticeCube.toCube s.m_cubeSpacing)) :
    stateWrites s = cs.flatMap LatticeCube.writes := by
  unfold stateWrites
  rw [h, List.flatMap_map]
  congr 1
  funext c
  exact cubeWrites_toCube _ hsp c

/-! ## Evaluating the read-out -/

theorem CubeState.eq_of_face (a b : CubeState) (h : ∀ f i j, a.face f i j = b.face f i j) :
    a = b := by
  obtain ⟨a1, a2, a3, a4, a5, a6⟩ := a
  obtain ⟨b1, b2, b3, b4, b5, b6⟩ := b
  have h1 : a1 = b1 := funext fun i => funext fun j => h .front i j
  have h2 : a2 = b2 := funext fun i => funext fun j => h .back i j
  have h3 : a3 = b3 := funext fun i => funext fun j => h .left i j
  have h4 : a4 = b4 := funext fun i => funext fun j => h .right i j
  have h5 : a5 = b5 := funext fun i => funext fun j => h .top i j
  have h6 : a6 = b6 := funext fun i => funext fun j => h .bottom i j
  rw [h1, h2, h3, h4, h5, h6]

/-- A read-out that agrees with `e` cell by cell is `e`. -/
theorem eq_some_of_cells (o : Option CubeState) (e : CubeState)
    (h : ∀ (f : Face) (i j : Fin 3), o.map (fun st => st.face f i j) = some (e.face f i j)) :
    o = some e := by
  cases o with
  | none => simpa using h .front 0 0
  | some st =>
    congr 1
    apply CubeState.eq_of_face
    intro f i j
    simpa using h f i j

theorem getCubeState_settled (s : RubiksCube) (hsp : s.m_cubeSpacing ≠ 0)
    (cs : List LatticeCube) (h : s.m_cubes = cs.map (LatticeCube.toCube s.m_cubeSpacing)) :
    getCubeState s = blackState.writeAll (cs.flatMap LatticeCube.writes) := by
  unfold getCubeState
  rw [stateWrites_settled s hsp cs h]

theorem getCubeState_congr (s s1 : RubiksCube) (hc : s1.m_cubes = s.m_cubes)
    (hsp : s1.m_cubeSpacing = s.m_cubeSpacing) : getCubeState s1 = getCubeState s := by
  unfold getCubeState stateWrites
  rw [hc, hsp]

theorem readout_latticeInit :
    blackState.writeAll (latticeInit.flatMap LatticeCube.writes) = some solvedState := by
  apply eq_some_of_cells
  decide!

/-- C1: for every positive spacing, `getCubeState` on a freshly initialised
cube returns the solved grid: front all GREEN, back all BLUE, left all ORANGE,
right all RED, top all WHITE, bottom all YELLOW. -/
theorem getCubeState_init (speed spacing : ℚ) (steps : ℤ) (h : 0 < spacing) :
    getCubeState (init (RubiksCube.new speed spacing steps)) = some solvedState := by
  rw [getCubeState_settled _ (by simpa [init, RubiksCube.new] using h.ne') latticeInit
    (by rw [init_cubes]; simp [RubiksCube.new, init]), readout_latticeInit]

theorem getCubeState_init_witness :
    (0 : ℚ) < 51 / 50 ∧
      getCubeState (init (RubiksCube.new 200 (51 / 50) 50)) = some solvedState :=
  ⟨by norm_num, getCubeState_init 200 (51 / 50) 50 (by norm_num)⟩

/-! ## Completed commands -/

/-- A direct request on an idle engine with an empty queue, followed by
enough frames: the engine is idle again and exactly that rotation was
committed. -/
theorem perform_spec (vmin dtMin : ℚ) (hv : 0 < vmin) (hv2 : vmin ≤ 200) (hd : 0 < dtMin)
    (s : RubiksCube) (cfg : RotationConfig) (l : List ℚ) (hq : s.m_moveQueue = [])
    (hs : vmin ≤ s.m_rotationSpeed) (hl : EnoughFrames 1 vmin dtMin l) :
    (perform s cfg l).m_isAnimating = false ∧ (perform s cfg l).m_moveQueue = [] ∧
    (perform s cfg l).m_cubes = commitCubes s.m_cubeSpacing cfg s.m_cubes ∧
    (perform s cfg l).m_cubeSpacing = s.m_cubeSpacing ∧
    vmin ≤ (perform s cfg l).m_rotationSpeed ∧
    commitLog (initRotation s cfg) l = [cfg] := by
  have hp : pending (initRotation s cfg) = [cfg] := by
    simp [pending, initRotation, activeConfig, hq]
  have hn : (pending (initRotation s cfg)).length * framesFor vmin dtMin ≤ l.length := by
    rw [hp]; simpa using hl.2
  obtain ⟨h1, h2, h3, h4, h5, -⟩ := updates_settle vmin dtMin hv (by linarith) hd
    (initRotation s cfg) l hl.1 (fun _ => ⟨hs, le_refl _⟩) hn
  rw [hp] at h3 h4
  refine ⟨h1, h2, ?_, h5, updates_speed_ge vmin hv2 l _ hs, h4⟩
  rw [perform, h3]
  simp [commitAll, initRotation]

theorem mainCube_cubes :
    mainCube.m_cubes = latticeInit.map (LatticeCube.toCube (51 / 50)) := by
  unfold mainCube
  rw [init_cubes]
  simp [RubiksCube.new]

theorem frontTurn_eq : frontTurn = Turn.cfg ⟨2, 1, -1⟩ := by
  simp [frontTurn, Turn.cfg, Turn.vec]

theorem readout_frontTurn :
    blackState.writeAll
      ((latticeInit.map (LatticeCube.turn ⟨2, 1, -1⟩)).flatMap LatticeCube.writes) =
      some afterFrontTurn := by
  apply eq_some_of_cells
  decide!

/-- C2: on the freshly initialised cube of `main.cpp` (spacing 1.02), the
front turn (axis (0,0,1), side 1, direction -1) started by a direct request
and run until it commits leaves front all GREEN and back all BLUE, and
cycles the four adjacent strips: top row 2 is ORANGE, right column 0 WHITE,
bottom row 0 RED, left column 2 YELLOW, every other cell (the centres among
them) keeping its solved colour. -/
theorem front_turn_readout (dtMin : ℚ) (hd : 0 < dtMin) (l : List ℚ)
    (hl : EnoughFrames 1 200 dtMin l) :
    (perform mainCube frontTurn l).m_isAnimating = false ∧
    getCubeState (perform mainCube frontTurn l) = some afterFrontTurn := by
  obtain ⟨h1, -, h3, h4, -, -⟩ := perform_spec 200 dtMin (by norm_num) (by norm_num) hd
    mainCube frontTurn l (by simp [mainCube, init, RubiksCube.new])
    (by simp [mainCube, init, RubiksCube.new]) hl
  refine ⟨h1, ?_⟩
  have hsp : mainCube.m_cubeSpacing = 51 / 50 := by simp [mainCube, init, RubiksCube.new]
  rw [hsp] at h3 h4
  rw [mainCube_cubes, frontTurn_eq,
    commitCubes_toCube (51 / 50) (by norm_num) ⟨2, 1, -1⟩ (by decide) latticeInit_ok] at h3
  rw [getCubeState_settled _ (by rw [h4]; norm_num) _ (by rw [h4]; exact h3), readout_frontTurn]

theorem front_turn_readout_witness :
    (0 : ℚ) < 1 ∧ EnoughFrames 1 200 1 [1, 1] ∧
    (perform mainCube frontTurn [1, 1]).m_isAnimating = false ∧
    getCubeState (perform mainCube frontTurn [1, 1]) = some afterFrontTurn :=
  ⟨by norm_num, ⟨by simp, by simp [framesFor, m_targetAngle]; norm_num⟩,
    front_turn_readout 1 (by norm_num) [1, 1]
      ⟨by simp, by simp [framesFor, m_targetAngle]; norm_num⟩⟩

theorem init_new_fields (speed spacing : ℚ) (steps : ℤ) :
    (init (RubiksCube.new speed spacing steps)).m_moveQueue = [] ∧
    (init (RubiksCube.new speed spacing steps)).m_rotationSpeed = speed ∧
    (init (RubiksCube.new speed spacing steps)).m_cubeSpacing = spacing ∧
    (init (RubiksCube.new speed spacing steps)).m_isAnimating = false := by
  simp [init, RubiksCube.new]

/-- C3: round trip on a freshly initialised cube.  For each of the 12 legal
commands, completing the command (it is committed to the sub-cubes) and then
completing its inverse (same axis and side, direction negated) makes
`getCubeState` return exactly what it returned before the first command. -/
theorem roundtrip_on_solved (speed spacing : ℚ) (steps : ℤ) (cfg : RotationConfig)
    (hc : Legal cfg) (hv : 0 < speed) (dtMin : ℚ) (hd : 0 < dtMin) (l1 l2 : List ℚ)
    (h1 : EnoughFrames 1 (min speed 200) dtMin l1)
    (h2 : EnoughFrames 1 (min speed 200) dtMin l2) :
    (perform (init (RubiksCube.new speed spacing steps)) cfg l1).m_isAnimating = false ∧
    (perform (init (RubiksCube.new speed spacing steps)) cfg l1).m_cubes =
      commitCubes spacing cfg (init (RubiksCube.new speed spacing steps)).m_cubes ∧
    (perform (perform (init (RubiksCube.new speed spacing steps)) cfg l1)
      cfg.inverse l2).m_isAnimating = false ∧
    getCubeState (perform (perform (init (RubiksCube.new speed spacing steps)) cfg l1)
      cfg.inverse l2) = getCubeState (init (RubiksCube.new speed spacing steps)) := by
  obtain ⟨i1, i2, i3, i4⟩ := init_new_fields speed spacing steps
  have hm : 0 < min speed 200 := lt_min hv (by norm_num)
  obtain ⟨a1, a2, a3, a4, a5, -⟩ := perform_spec (min speed 200) dtMin hm (min_le_right _ _) hd
    (init (RubiksCube.new speed spacing steps)) cfg l1 i1 (by rw [i2]; exact min_le_left _ _) h1
  obtain ⟨b1, -, b3, b4, -, -⟩ := perform_spec (min speed 200) dtMin hm (min_le_right _ _) hd
    (perform (init (RubiksCube.new speed spacing steps)) cfg l1) cfg.inverse l2 a2 a5 h2
  rw [i3] at a3
  refine ⟨a1, a3, b1, ?_⟩
  apply getCubeState_congr
  · rw [b3, a4, a3, i3, commitCubes_inverse spacing cfg hc]
  · rw [b4, a4]

theorem roundtrip_on_solved_witness :
    Legal frontTurn ∧ (0 : ℚ) < 200 ∧ (0 : ℚ) < 1 ∧ EnoughFrames 1 (min 200 200) 1 [1, 1] ∧
    (perform (init (RubiksCube.new 200 (51 / 50) 50)) frontTurn [1, 1]).m_isAnimating = false ∧
    (perform (init (RubiksCube.new 200 (51 / 50) 50)) frontTurn [1, 1]).m_cubes =
      commitCubes (51 / 50) frontTurn (init (RubiksCube.new 200 (51 / 50) 50)).m_cubes ∧
    (perform (perform (init (RubiksCube.new 200 (51 / 50) 50)) frontTurn [1, 1])
      frontTurn.inverse [1, 1]).m_isAnimating = false ∧
    getCubeState (perform (perform (init (RubiksCube.new 200 (51 / 50) 50)) frontTurn [1, 1])
      frontTurn.inverse [1, 1]) = getCubeState (init (RubiksCube.new 200 (51 / 50) 50)) :=
  have hf : EnoughFrames 1 (min 200 200) 1 [1, 1] :=
    ⟨by simp, by simp [framesFor, m_targetAngle]; norm_num⟩
  ⟨by decide, by norm_num, by norm_num, hf,
    roundtrip_on_solved 200 (51 / 50) 50 frontTurn (by decide) (by norm_num) 1 (by norm_num)
      [1, 1] [1, 1] hf hf⟩

/-- C4: four-fold identity.  On every idle engine with an empty queue (in
particular every state reached from `init` by completed legal rotations),
completing the same legal command four times in a row restores the
sub-cubes, so `getCubeState` returns what it returned before the first. -/
theorem four_turns_identity (s : RubiksCube) (cfg : RotationConfig) (hc : Legal cfg)
    (hidle : s.m_isAnimating = false) (hq : s.m_moveQueue = []) (hv : 0 < s.m_rotationSpeed)
    (dtMin : ℚ) (hd : 0 < dtMin) (l1 l2 l3 l4 : List ℚ)
    (h1 : EnoughFrames 1 (min s.m_rotationSpeed 200) dtMin l1)
    (h2 : EnoughFrames 1 (min s.m_rotationSpeed 200) dtMin l2)
    (h3 : EnoughFrames 1 (min s.m_rotationSpeed 200) dtMin l3)
    (h4 : EnoughFrames 1 (min s.m_rotationSpeed 200) dtMin l4) :
    (perform (perform (perform (perform s cfg l1) cfg l2) cfg l3) cfg l4).m_isAnimating = false ∧
    (perform (perform (perform (perform s cfg l1) cfg l2) cfg l3) cfg l4).m_cubes = s.m_cubes ∧
    getCubeState (perform (perform (perform (perform s cfg l1) cfg l2) cfg l3) cfg l4) =
      getCubeState s := by
  have _ := hidle
  have hm : 0 < min s.m_rotationSpeed 200 := lt_min hv (by norm_num)
  obtain ⟨-, a2, a3, a4, a5, -⟩ := perform_spec _ dtMin hm (min_le_right _ _) hd
    s cfg l1 hq (min_le_left _ _) h1
  obtain ⟨-, b2, b3, b4, b5, -⟩ := perform_spec _ dtMin hm (min_le_right _ _) hd
    (perform s cfg l1) cfg l2 a2 a5 h2
  obtain ⟨-, c2, c3, c4, c5, -⟩ := perform_spec _ dtMin hm (min_le_right _ _) hd
    (perform (perform s cfg l1) cfg l2) cfg l3 b2 b5 h3
  obtain ⟨d1, -, d3, d4, -, -⟩ := perform_spec _ dtMin hm (min_le_right _ _) hd
    (perform (perform (perform s cfg l1) cfg l2) cfg l3) cfg l4 c2 c5 h4
  have hcubes : (perform (perform (perform (perform s cfg l1) cfg l2) cfg l3) cfg l4).m_cubes =
      s.m_cubes := by
    rw [d3, c4, b4, a4, c3, b4, a4, b3, a4, a3, commitCubes_four _ cfg hc]
  exact ⟨d1, hcubes, getCubeState_congr _ _ hcubes (by rw [d4, c4, b4, a4])⟩

theorem four_turns_identity_witness :
    Legal frontTurn ∧ mainCube.m_isAnimating = false ∧ mainCube.m_moveQueue = [] ∧
    (0 : ℚ) < mainCube.m_rotationSpeed ∧ (0 : ℚ) < 1 ∧
    EnoughFrames 1 (min mainCube.m_rotationSpeed 200) 1 [1, 1] ∧
    (perform (perform (perform (perform mainCube frontTurn [1, 1]) frontTurn [1, 1])
      frontTurn [1, 1]) frontTurn [1, 1]).m_isAnimating = false ∧
    (perform (perform (perform (perform mainCube frontTurn [1, 1]) frontTurn [1, 1])
      frontTurn [1, 1]) frontTurn [1, 1]).m_cubes = mainCube.m_cubes ∧
    getCubeState (perform (perform (perform (perform mainCube frontTurn [1, 1])
      frontTurn [1, 1]) frontTurn [1, 1]) frontTurn [1, 1]) = getCubeState mainCube :=
  have hs : mainCube.m_rotationSpeed = 200 := by simp [mainCube, init, RubiksCube.new]
  have hf : EnoughFrames 1 (min mainCube.m_rotationSpeed 200) 1 [1, 1] := by
    rw [hs]
    exact ⟨by simp, by simp [framesFor, m_targetAngle]; norm_num⟩
  have hi : mainCube.m_isAnimating = false := by simp [mainCube, init, RubiksCube.new]
  have hq : mainCube.m_moveQueue = [] := by simp [mainCube, init, RubiksCube.new]
  ⟨by decide, hi, hq, by rw [hs]; norm_num, by norm_num, hf,
    four_turns_identity mainCube frontTurn (by decide) hi hq (by rw [hs]; norm_num) 1
      (by norm_num) [1, 1] [1, 1] [1, 1] [1, 1] hf hf hf hf⟩

/-! ## Queued commands -/

theorem commitAll_cons (sp : ℚ) (c : RotationConfig) (cs : List RotationConfig)
    (cubes : List Cube) :
    commitAll sp (c :: cs) cubes = commitAll sp cs (commitCubes sp c cubes) := rfl

/-- Committing a list of legal rotations and then the inverses in reverse
order restores the sub-cubes. -/
theorem commitAll_inverse (sp : ℚ) (cs : List RotationConfig) :
    ∀ cubes : List Cube, (∀ c ∈ cs, Legal c) →
      commitAll sp (cs.reverse.map RotationConfig.inverse) (commitAll sp cs cubes) = cubes := by
  induction cs with
  | nil => intro cubes _; rfl
  | cons c cs ih =>
    intro cubes h
    rw [List.reverse_cons, List.map_append, commitAll_append, commitAll_cons,
      ih _ (fun x hx => h x (List.mem_cons_of_mem _ hx))]
    simp only [List.map_cons, List.map_nil, commitAll, List.foldl_cons, List.foldl_nil]
    exact commitCubes_inverse sp c (h c (List.mem_cons_self _ _)) cubes

/-- Commands enqueued on an idle engine with an empty queue, followed by
enough frames: the engine ends idle with an empty queue and has committed
exactly those commands, in order. -/
theorem queued_spec (dtMin : ℚ) (hd : 0 < dtMin) (s : RubiksCube)
    (cfgs : List RotationConfig) (l : List ℚ) (hidle : s.m_isAnimating = false)
    (hq : s.m_moveQueue = []) (hl : EnoughFrames cfgs.length 400 dtMin l) :
    (updates (addMoves s cfgs) l).m_isAnimating = false ∧
    (updates (addMoves s cfgs) l).m_moveQueue = [] ∧
    (updates (addMoves s cfgs) l).m_cubes = commitAll s.m_cubeSpacing cfgs s.m_cubes ∧
    (updates (addMoves s cfgs) l).m_cubeSpacing = s.m_cubeSpacing ∧
    commitLog (addMoves s cfgs) l = cfgs := by
  have hp : pending (addMoves s cfgs) = cfgs := by
    rw [addMoves_eq]
    simp [pending, hidle, hq]
  have ha : (addMoves s cfgs).m_isAnimating = false := by
    rw [addMoves_eq]; exact hidle
  obtain ⟨h1, h2, h3, h4, h5, -⟩ := updates_settle 400 dtMin (by norm_num) (le_refl _) hd
    (addMoves s cfgs) l hl.1 (fun h => by rw [ha] at h; exact absurd h (by simp))
    (by rw [hp]; exact hl.2)
  rw [hp] at h3 h4
  have hc : (addMoves s cfgs).m_cubes = s.m_cubes := by rw [addMoves_eq]
  have hs : (addMoves s cfgs).m_cubeSpacing = s.m_cubeSpacing := by rw [addMoves_eq]
  rw [hc, hs] at h3
  rw [hs] at h5
  exact ⟨h1, h2, h3, h5, h4⟩

/-- C5: shuffle and undo.  On an idle engine with an empty queue (in
particular any state reached by completed legal rotations), for every
outcome of the random source: after the `m_shuffleSteps` rotations enqueued
by `shuffle` have all completed, completing the inverse sequence (the same
commands in reverse order, each with its direction negated) makes
`getCubeState` return its value before the shuffle. -/
theorem shuffle_then_inverse (s : RubiksCube) (rnd : ℕ → ℕ) (hidle : s.m_isAnimating = false)
    (hq : s.m_moveQueue = []) (dtMin : ℚ) (hd : 0 < dtMin) (l1 l2 : List ℚ)
    (h1 : EnoughFrames s.m_shuffleSteps.toNat 400 dtMin l1)
    (h2 : EnoughFrames s.m_shuffleSteps.toNat 400 dtMin l2) :
    (shuffle rnd s).m_moveQueue.length = s.m_shuffleSteps.toNat ∧
    (updates (shuffle rnd s) l1).m_isAnimating = false ∧
    (updates (shuffle rnd s) l1).m_moveQueue = [] ∧
    (updates (shuffle rnd s) l1).m_cubes =
      commitAll s.m_cubeSpacing (shuffle rnd s).m_moveQueue s.m_cubes ∧
    (updates (addMoves (updates (shuffle rnd s) l1)
      ((shuffle rnd s).m_moveQueue.reverse.map RotationConfig.inverse)) l2).m_isAnimating
        = false ∧
    (updates (addMoves (updates (shuffle rnd s) l1)
      ((shuffle rnd s).m_moveQueue.reverse.map RotationConfig.inverse)) l2).m_moveQueue = [] ∧
    getCubeState (updates (addMoves (updates (shuffle rnd s) l1)
      ((shuffle rnd s).m_moveQueue.reverse.map RotationConfig.inverse)) l2) =
      getCubeState s := by
  have hsh : shuffle rnd s = addMoves s (shuffleDraws rnd 0 s.m_shuffleSteps.toNat) := by
    rw [shuffle_eq, addMoves_eq]
  have hqueue : (shuffle rnd s).m_moveQueue = shuffleDraws rnd 0 s.m_shuffleSteps.toNat := by
    rw [shuffle_eq]; simp [hq]
  have hlen := length_shuffleDraws rnd s.m_shuffleSteps.toNat 0
  have hlegal := legal_shuffleDraws rnd s.m_shuffleSteps.toNat 0
  rw [hqueue]
  rw [hsh]
  obtain ⟨a1, a2, a3, a4, -⟩ := queued_spec dtMin hd s _ l1 hidle hq (by rw [hlen]; exact h1)
  obtain ⟨b1, b2, b3, b4, -⟩ := queued_spec dtMin hd
    (updates (addMoves s (shuffleDraws rnd 0 s.m_shuffleSteps.toNat)) l1)
    ((shuffleDraws rnd 0 s.m_shuffleSteps.toNat).reverse.map RotationConfig.inverse) l2 a1 a2
    (by rw [List.length_map, List.length_reverse, hlen]; exact h2)
  refine ⟨hlen, a1, a2, a3, b1, b2, ?_⟩
  apply getCubeState_congr
  · rw [b3, a4, a3, commitAll_inverse _ _ _ hlegal]
  · rw [b4, a4]


theorem shuffle_then_inverse_witness :
    (init (RubiksCube.new 200 (51 / 50) 2)).m_isAnimating = false ∧
    (init (RubiksCube.new 200 (51 / 50) 2)).m_moveQueue = [] ∧ (0 : ℚ) < 1 ∧
    EnoughFrames (init (RubiksCube.new 200 (51 / 50) 2)).m_shuffleSteps.toNat 400 1
      [1, 1, 1, 1] ∧
    getCubeState (updates (addMoves (updates (shuffle (fun k => k)
        (init (RubiksCube.new 200 (51 / 50) 2))) [1, 1, 1, 1])
      ((shuffle (fun k => k) (init (RubiksCube.new 200 (51 / 50) 2))).m_moveQueue.reverse.map
        RotationConfig.inverse)) [1, 1, 1, 1]) =
      getCubeState (init (RubiksCube.new 200 (51 / 50) 2)) :=
  have hi : (init (RubiksCube.new 200 (51 / 50) 2)).m_isAnimating = false := by
    simp [init, RubiksCube.new]
  have hq : (init (RubiksCube.new 200 (51 / 50) 2)).m_moveQueue = [] := by
    simp [init, RubiksCube.new]
  have hf : EnoughFrames (init (RubiksCube.new 200 (51 / 50) 2)).m_shuffleSteps.toNat 400 1
      [1, 1, 1, 1] := by
    refine ⟨by simp, ?_⟩
    have h : ⌈(90 : ℚ) / (400 * 1)⌉₊ ≤ 1 := Nat.ceil_le.2 (by norm_num)
    have h2 : (2 : ℤ).toNat = 2 := rfl
    simp only [init, RubiksCube.new, framesFor, m_targetAngle, List.length_cons,
      List.length_nil, h2]
    omega
  ⟨hi, hq, by norm_num, hf,
    (shuffle_then_inverse (init (RubiksCube.new 200 (51 / 50) 2)) (fun k => k) hi hq 1
      (by norm_num) [1, 1, 1, 1] [1, 1, 1, 1] hf hf).2.2.2.2.2.2⟩

/-! ## Coverage in every reachable state -/

/-- C6: after `init` and any finite sequence of engine operations with legal
commands (spacing above 0.1), with no rotation in progress, `getCubeState`
covers each of the 54 facelets exactly once: every assignment stays inside
its 3x3 array, no cell of the result is BLACK, and every cell is written by
exactly one (sub-cube, visible local face) pair. -/
theorem facelets_covered_once (speed spacing : ℚ) (steps : ℤ) (s : RubiksCube)
    (hsp : 1 / 10 < spacing) (hr : Reachable speed spacing steps s)
    (hidle : s.m_isAnimating = false) :
    ∃ st, getCubeState s = some st ∧ (∀ w ∈ stateWrites s, w.inBounds) ∧
      ∀ (f : Face) (i j : Fin 3), st.face f i j ≠ Color.BLACK ∧
        (stateWrites s).countP (fun w => decide (w.cell = (f, (i : ℤ), (j : ℤ)))) = 1 := by
  have _ := hidle
  obtain ⟨h1, ⟨cs, hcs, hok⟩, -, -⟩ := reachable_ok speed spacing steps hsp s hr
  have hne : s.m_cubeSpacing ≠ 0 := by rw [h1]; linarith
  rw [← h1] at hcs
  have hw := stateWrites_settled s hne cs hcs
  obtain ⟨hb, hcount⟩ := lattice_coverage hok
  rw [← hw] at hb hcount
  obtain ⟨st, hst⟩ := writeAll_some (stateWrites s) blackState (fun w hw => (hb w hw).1)
  refine ⟨st, hst, fun w hw => (hb w hw).1, ?_⟩
  intro f i j
  have hc := hcount _ (mem_allCells f i j)
  refine ⟨?_, hc⟩
  have hex : ∃ w ∈ stateWrites s, w.cell = (f, (i : ℤ), (j : ℤ)) := by
    have hpos : 0 < (stateWrites s).countP
        (fun w => decide (w.cell = (f, (i : ℤ), (j : ℤ)))) := by
      rw [hc]; exact Nat.one_pos
    obtain ⟨w, hw1, hw2⟩ := List.countP_pos_iff.1 hpos
    exact ⟨w, hw1, by simpa using hw2⟩
  obtain ⟨w, hw1, -, hw3⟩ := writeAll_touched (stateWrites s) f i j blackState st hst hex
  rw [hw3]
  exact (hb w hw1).2

theorem facelets_covered_once_witness :
    (1 / 10 : ℚ) < 51 / 50 ∧ (perform mainCube frontTurn [1]).m_isAnimating = false ∧
    ∃ st, getCubeState (perform mainCube frontTurn [1]) = some st ∧
      (∀ w ∈ stateWrites (perform mainCube frontTurn [1]), w.inBounds) ∧
      ∀ (f : Face) (i j : Fin 3), st.face f i j ≠ Color.BLACK ∧
        (stateWrites (perform mainCube frontTurn [1])).countP
          (fun w => decide (w.cell = (f, (i : ℤ), (j : ℤ)))) = 1 :=
  have hidle : (perform mainCube frontTurn [1]).m_isAnimating = false := by
    simp [perform, updates, update, advance, beginFrame, initRotation, mainCube, init,
      RubiksCube.new, m_targetAngle]
    norm_num
  ⟨by norm_num, hidle,
    facelets_covered_once 200 (51 / 50) 50 (perform mainCube frontTurn [1]) (by norm_num)
      (Reachable.update _ 1 (Reachable.initRotation _ frontTurn Reachable.init (by decide)))
      hidle⟩

/-! ## Queue order -/

/-- At every point of a run, the rotations committed so far followed by the
rotations still pending are the rotations that were pending at the start. -/
theorem commitLog_append_pending (l : List ℚ) :
    ∀ s : RubiksCube, commitLog s l ++ pending (updates s l) = pending s := by
  induction l with
  | nil => intro s; simp [commitLog, updates]
  | cons d l ih =>
    intro s
    have hupd : updates s (d :: l) = updates (update s d) l := rfl
    rw [hupd, commitLog, List.append_assoc, ih (update s d), (update_pending s d).1]

/-- Each call of `update` leaves the queue alone or removes exactly its head. -/
theorem update_queue (s : RubiksCube) (dt : ℚ) :
    (update s dt).m_moveQueue = s.m_moveQueue ∨
      ∃ c, s.m_moveQueue = c :: (update s dt).m_moveQueue := by
  rcases update_cases s dt with ⟨ha, hq, h⟩ | ⟨c, q, ha, hq, hc, h⟩ | ⟨c, q, ha, hq, hc, h⟩ |
    ⟨ha, hc, h⟩ | ⟨ha, hc, h⟩ <;> rw [h]
  · exact Or.inl rfl
  · exact Or.inr ⟨c, hq⟩
  · exact Or.inr ⟨c, hq⟩
  · exact Or.inl rfl
  · exact Or.inl rfl

/-- C7: move-queue FIFO.  Commands appended with `addMove` (as `shuffle`
does) to an idle engine with an empty queue are committed in exactly the
order they were enqueued, each exactly once: at every point of every run the
commits so far followed by the rotations still pending are the enqueued
list, and after enough frames with time steps of at least `dtMin` the engine
is idle with an empty queue and has committed exactly the enqueued list.
Each call of `update` removes at most the current head of the queue. -/
theorem queue_fifo (s : RubiksCube) (cfgs : List RotationConfig)
    (hidle : s.m_isAnimating = false) (hq : s.m_moveQueue = []) (dtMin : ℚ) (hd : 0 < dtMin)
    (l : List ℚ) (hl : EnoughFrames cfgs.length 400 dtMin l) :
    (∀ l1 : List ℚ, commitLog (addMoves s cfgs) l1 ++ pending (updates (addMoves s cfgs) l1)
      = cfgs) ∧
    commitLog (addMoves s cfgs) l = cfgs ∧
    (updates (addMoves s cfgs) l).m_isAnimating = false ∧
    (updates (addMoves s cfgs) l).m_moveQueue = [] ∧
    (updates (addMoves s cfgs) l).m_cubes = commitAll s.m_cubeSpacing cfgs s.m_cubes ∧
    (∀ rnd : ℕ → ℕ, shuffle rnd s = addMoves s (shuffleDraws rnd 0 s.m_shuffleSteps.toNat)) ∧
    ∀ (s1 : RubiksCube) (dt : ℚ), (update s1 dt).m_moveQueue = s1.m_moveQueue ∨
      ∃ c, s1.m_moveQueue = c :: (update s1 dt).m_moveQueue := by
  have hp : pending (addMoves s cfgs) = cfgs := by
    rw [addMoves_eq]
    simp [pending, hidle, hq]
  obtain ⟨a1, a2, a3, -, a5⟩ := queued_spec dtMin hd s cfgs l hidle hq hl
  refine ⟨fun l1 => ?_, a5, a1, a2, a3, fun rnd => ?_, update_queue⟩
  · rw [commitLog_append_pending, hp]
  · rw [shuffle_eq, addMoves_eq]

theorem queue_fifo_witness :
    mainCube.m_isAnimating = false ∧ mainCube.m_moveQueue = [] ∧ (0 : ℚ) < 1 ∧
    EnoughFrames [frontTurn, frontTurn.inverse].length 400 1 [1, 1, 1, 1] ∧
    commitLog (addMoves mainCube [frontTurn, frontTurn.inverse]) [1, 1, 1, 1] =
      [frontTurn, frontTurn.inverse] :=
  have hi : mainCube.m_isAnimating = false := by simp [mainCube, init, RubiksCube.new]
  have hq : mainCube.m_moveQueue = [] := by simp [mainCube, init, RubiksCube.new]
  have hf : EnoughFrames [frontTurn, frontTurn.inverse].length 400 1 [1, 1, 1, 1] := by
    refine ⟨by simp, ?_⟩
    have h : ⌈(90 : ℚ) / (400 * 1)⌉₊ ≤ 1 := Nat.ceil_le.2 (by norm_num)
    simp only [framesFor, m_targetAngle, List.length_cons, List.length_nil]
    omega
  ⟨hi, hq, by norm_num, hf,
    (queue_fifo mainCube [frontTurn, frontTurn.inverse] hi hq 1 (by norm_num) [1, 1, 1, 1]
      hf).2.1⟩

/-! ## Initialisation -/

theorem init_masks (speed spacing : ℚ) (steps : ℤ) :
    (init (RubiksCube.new speed spacing steps)).m_cubes.map Cube.colorMask =
      gridPoints.map fun p => initMask p.x p.y p.z := by
  rw [init_cubes]
  simp [RubiksCube.new, latticeInit, LatticeCube.toCube, Function.comp_def]

theorem init_translations (speed spacing : ℚ) (steps : ℤ) :
    (init (RubiksCube.new speed spacing steps)).m_cubes.map (fun c => c.model.c3.xyz) =
      gridPoints.map fun p => ⟨p.x * spacing, p.y * spacing, p.z * spacing⟩ := by
  rw [init_cubes]
  simp [RubiksCube.new, latticeInit, LatticeCube.toCube, Function.comp_def, Vec4.xyz,
    LatticeCube.pos, IMat3.mulVec, IMat3.identity, init]

theorem mem_gridPoints (p : IVec3) : p ∈ gridPoints ↔ p.InGrid := by
  constructor
  · exact gridPoints_inGrid p
  · obtain ⟨x, y, z⟩ := p
    rintro ⟨hx, hy, hz⟩
    simp only at hx hy hz
    rcases hx with rfl | rfl | rfl <;> rcases hy with rfl | rfl | rfl <;>
      rcases hz with rfl | rfl | rfl <;> decide

/-- C8: `init` on a freshly constructed engine creates exactly 27 sub-cubes,
one per grid coordinate of {-1,0,1}^3 (translation = coordinate times
spacing, each coordinate once), and among their colour masks exactly one has
0 bits set, six have 1, twelve have 2 and eight have 3; no mask has more than
3 bits or both bits of an opposite pair (back/front, left/right, bottom/top). -/
theorem init_census (speed spacing : ℚ) (steps : ℤ) :
    (init (RubiksCube.new speed spacing steps)).m_cubes.length = 27 ∧
    (init (RubiksCube.new speed spacing steps)).m_cubes.map (fun c => c.model.c3.xyz) =
      (gridPoints.map fun p => ⟨p.x * spacing, p.y * spacing, p.z * spacing⟩) ∧
    gridPoints.Nodup ∧ (∀ p : IVec3, p ∈ gridPoints ↔ p.InGrid) ∧
    (((init (RubiksCube.new speed spacing steps)).m_cubes.map Cube.colorMask).filter
      fun m => popcount m = 0).length = 1 ∧
    (((init (RubiksCube.new speed spacing steps)).m_cubes.map Cube.colorMask).filter
      fun m => popcount m = 1).length = 6 ∧
    (((init (RubiksCube.new speed spacing steps)).m_cubes.map Cube.colorMask).filter
      fun m => popcount m = 2).length = 12 ∧
    (((init (RubiksCube.new speed spacing steps)).m_cubes.map Cube.colorMask).filter
      fun m => popcount m = 3).length = 8 ∧
    ∀ m ∈ (init (RubiksCube.new speed spacing steps)).m_cubes.map Cube.colorMask,
      popcount m ≤ 3 ∧ ¬ (m.testBit 0 = true ∧ m.testBit 1 = true) ∧
      ¬ (m.testBit 2 = true ∧ m.testBit 3 = true) ∧
      ¬ (m.testBit 4 = true ∧ m.testBit 5 = true) := by
  rw [init_masks, init_translations]
  refine ⟨?_, rfl, by decide, mem_gridPoints, by decide!, by decide!, by decide!, by decide!,
    by decide!⟩
  have := congrArg List.length (init_translations speed spacing steps)
  simpa [gridPoints, gridRange] using this

/-! ## Angular speed -/

/-- A rotation taken from the queue advances at 400 degrees per second: the
call of `update` that dequeues it sets the speed, and later calls of
`update` during the rotation keep it. -/
theorem queued_rotation_speed (s : RubiksCube) (dt : ℚ) (c : RotationConfig)
    (q : List RotationConfig) (ha : s.m_isAnimating = false) (hq : s.m_moveQueue = c :: q) :
    (update s dt).m_rotationSpeed = 400 ∧
    ((update s dt).m_isAnimating = true → (update s dt).m_currentAngle = 400 * dt) := by
  by_cases hc : m_targetAngle ≤ 400 * dt
  · rw [update_idle_commit s dt c q ha hq hc]; simp
  · rw [update_idle_start s dt c q ha hq hc]; simp

/-- During a rotation `update` adds `m_rotationSpeed * dt` to the angle and
leaves the speed as it is, whatever started the rotation. -/
theorem animating_advance (s : RubiksCube) (dt : ℚ) (ha : s.m_isAnimating = true)
    (hc : s.m_currentAngle + s.m_rotationSpeed * dt < m_targetAngle) :
    (update s dt).m_currentAngle = s.m_currentAngle + s.m_rotationSpeed * dt ∧
    (update s dt).m_rotationSpeed = s.m_rotationSpeed ∧
    (update s dt).m_isAnimating = true := by
  rw [update_anim_continue s dt ha (not_le.2 hc)]
  exact ⟨rfl, rfl, ha⟩

/-- C9 (failing input): a direct request made while the engine is idle, right
after a queued rotation was committed, advances at the queued rate.  After
`addMove` and one call `update(1)` the engine is idle with an empty queue;
`initRotation` followed by `update(0.1)` leaves the angle at 40 = 400 * 0.1
degrees, not at 20 = 200 * 0.1. -/
theorem direct_after_queued_speed :
    (update (addMove mainCube frontTurn) 1).m_isAnimating = false ∧
    (update (addMove mainCube frontTurn) 1).m_moveQueue = [] ∧
    (update (initRotation (update (addMove mainCube frontTurn) 1) frontTurn)
      (1 / 10)).m_isAnimating = true ∧
    (update (initRotation (update (addMove mainCube frontTurn) 1) frontTurn)
      (1 / 10)).m_currentAngle = 40 ∧
    (update (initRotation (update (addMove mainCube frontTurn) 1) frontTurn)
      (1 / 10)).m_rotationSpeed = 400 := by
  have h1 : update (addMove mainCube frontTurn) 1 =
      { addMove mainCube frontTurn with
        m_moveQueue := []
        m_rotationAxis := frontTurn.axis
        m_rotationDirection := frontTurn.direction
        m_rotationSide := frontTurn.side
        m_rotationSpeed := 400
        m_cubes := commitCubes (addMove mainCube frontTurn).m_cubeSpacing frontTurn
          (addMove mainCube frontTurn).m_cubes
        m_isAnimating := false
        m_currentAngle := 0 } :=
    update_idle_commit _ 1 frontTurn [] (by simp [addMove, mainCube, init, RubiksCube.new])
      (by simp [addMove, mainCube, init, RubiksCube.new])
      (by simp only [m_targetAngle]; norm_num)
  rw [h1]
  rw [update_anim_continue _ (1 / 10) (by simp [initRotation])
    (by simp only [initRotation, m_targetAngle]; norm_num)]
  simp [initRotation]
  norm_num

/-! ## Dequeuing -/

/-- C10: `update` removes the head of the move queue if and only if, at
entry, no rotation is active and the queue is non-empty, and then it removes
exactly the head.  Called while a rotation is active, `update` leaves the
queue and the active axis, side and direction unchanged, and either the
rotation goes on (sub-cubes untouched, angle below 90) or it is committed as
a quarter turn of the active rotation and the engine becomes idle; so no
second command starts before the commit.  `addMove` and `shuffle` do not
touch the animation state or the sub-cubes. -/
theorem dequeue_only_when_idle (s : RubiksCube) (dt : ℚ) :
    ((update s dt).m_moveQueue ≠ s.m_moveQueue ↔
      (s.m_isAnimating = false ∧ s.m_moveQueue ≠ [])) ∧
    (s.m_isAnimating = false → (update s dt).m_moveQueue = s.m_moveQueue.tail) ∧
    (s.m_isAnimating = true →
      (update s dt).m_moveQueue = s.m_moveQueue ∧ activeConfig (update s dt) = activeConfig s ∧
      (((update s dt).m_isAnimating = true ∧ (update s dt).m_cubes = s.m_cubes ∧
          (update s dt).m_currentAngle < m_targetAngle) ∨
        ((update s dt).m_isAnimating = false ∧
          m_targetAngle ≤ s.m_currentAngle + s.m_rotationSpeed * dt ∧
          (update s dt).m_cubes = commitCubes s.m_cubeSpacing (activeConfig s) s.m_cubes))) ∧
    (∀ cfg, (addMove s cfg).m_isAnimating = s.m_isAnimating ∧
      activeConfig (addMove s cfg) = activeConfig s ∧
      (addMove s cfg).m_currentAngle = s.m_currentAngle ∧
      (addMove s cfg).m_cubes = s.m_cubes) ∧
    (∀ rnd, (shuffle rnd s).m_isAnimating = s.m_isAnimating ∧
      activeConfig (shuffle rnd s) = activeConfig s ∧
      (shuffle rnd s).m_currentAngle = s.m_currentAngle ∧
      (shuffle rnd s).m_cubes = s.m_cubes) := by
  refine ⟨?_, ?_, ?_, fun cfg => ⟨rfl, rfl, rfl, rfl⟩,
    fun rnd => by rw [shuffle_eq]; exact ⟨rfl, rfl, rfl, rfl⟩⟩
  · rcases update_cases s dt with ⟨ha, hq, h⟩ | ⟨c, q, ha, hq, hc, h⟩ |
      ⟨c, q, ha, hq, hc, h⟩ | ⟨ha, hc, h⟩ | ⟨ha, hc, h⟩ <;> rw [h]
    · simp [ha, hq]
    · simp [ha, hq]
    · simp [ha, hq]
    · simp [ha]
    · simp [ha]
  · intro hidle
    rcases update_cases s dt with ⟨ha, hq, h⟩ | ⟨c, q, ha, hq, hc, h⟩ |
      ⟨c, q, ha, hq, hc, h⟩ | ⟨ha, hc, h⟩ | ⟨ha, hc, h⟩ <;> rw [h] <;> simp_all
  · intro hanim
    rcases update_cases s dt with ⟨ha, hq, h⟩ | ⟨c, q, ha, hq, hc, h⟩ |
      ⟨c, q, ha, hq, hc, h⟩ | ⟨ha, hc, h⟩ | ⟨ha, hc, h⟩
    · rw [ha] at hanim; exact absurd hanim (by simp)
    · rw [ha] at hanim; exact absurd hanim (by simp)
    · rw [ha] at hanim; exact absurd hanim (by simp)
    · rw [h]
      exact ⟨rfl, rfl, Or.inr ⟨rfl, hc, rfl⟩⟩
    · rw [h]
      exact ⟨rfl, rfl, Or.inl ⟨ha, rfl, not_le.1 hc⟩⟩


/-! ## Frame properties -/

theorem commitCubes_colorMask (sp : ℚ) (cfg : RotationConfig) (cubes : List Cube) :
    (commitCubes sp cfg cubes).map Cube.colorMask = cubes.map Cube.colorMask := by
  unfold commitCubes
  rw [List.map_map]
  apply List.map_congr_left
  intro cube _
  simp only [Function.comp, commitCube]
  split_ifs <;> rfl

theorem update_colorMask (s : RubiksCube) (dt : ℚ) :
    (update s dt).m_cubes.map Cube.colorMask = s.m_cubes.map Cube.colorMask := by
  rcases update_cases s dt with ⟨ha, hq, h⟩ | ⟨c, q, ha, hq, hc, h⟩ | ⟨c, q, ha, hq, hc, h⟩ |
    ⟨ha, hc, h⟩ | ⟨ha, hc, h⟩ <;> rw [h]
  · exact commitCubes_colorMask _ _ _
  · exact commitCubes_colorMask _ _ _

/-- A call of `update` that commits nothing leaves the sub-cubes as they are. -/
theorem update_cubes_of_no_commit (s : RubiksCube) (dt : ℚ)
    (h : ¬ ((beginFrame s).m_isAnimating = true ∧
      m_targetAngle ≤ (beginFrame s).m_currentAngle + (beginFrame s).m_rotationSpeed * dt)) :
    (update s dt).m_cubes = s.m_cubes := by
  have hc : commitOf s dt = none := by
    unfold commitOf
    simp only [ge_iff_le]
    rw [if_neg h]
  have := (update_pending s dt).2
  rw [hc] at this
  simpa [commitAll] using this

/-- C11: the sub-cube list is changed only by a completing call of `update`.
`addMove`, `shuffle` and `initRotation` leave the whole list unchanged
(`getCubeState` is a const method: a function of the engine that returns no
engine); a call `update(dt)` in which the advanced angle stays below 90
degrees, or in which no rotation is active after the dequeue step, leaves the
list unchanged; a call of `update` that changes the list is one in which a
rotation is active and its advanced angle is at least 90 degrees; and every
call of `update` keeps the number of sub-cubes and every `colorMask`. -/
theorem cubes_change_only_on_commit (s : RubiksCube) (dt : ℚ) :
    (∀ cfg, (addMove s cfg).m_cubes = s.m_cubes) ∧
    (∀ rnd, (shuffle rnd s).m_cubes = s.m_cubes) ∧
    (∀ cfg, (initRotation s cfg).m_cubes = s.m_cubes) ∧
    (¬ ((beginFrame s).m_isAnimating = true ∧
        m_targetAngle ≤ (beginFrame s).m_currentAngle + (beginFrame s).m_rotationSpeed * dt) →
      (update s dt).m_cubes = s.m_cubes) ∧
    ((update s dt).m_cubes ≠ s.m_cubes →
      (beginFrame s).m_isAnimating = true ∧
        m_targetAngle ≤ (beginFrame s).m_currentAngle + (beginFrame s).m_rotationSpeed * dt) ∧
    (update s dt).m_cubes.length = s.m_cubes.length ∧
    (update s dt).m_cubes.map Cube.colorMask = s.m_cubes.map Cube.colorMask := by
  refine ⟨fun _ => rfl, fun rnd => by rw [shuffle_eq], fun _ => rfl,
    update_cubes_of_no_commit s dt, ?_, ?_, update_colorMask s dt⟩
  · intro hne
    by_contra hcon
    exact hne (update_cubes_of_no_commit s dt hcon)
  · have := congrArg List.length (update_colorMask s dt)
    simpa using this

/-! ## What shuffle enqueues -/

theorem shuffleDraws_getElem (rnd : ℕ → ℕ) (n : ℕ) :
    ∀ (i k : ℕ), k < n →
      (shuffleDraws rnd i n)[k]? =
        some (shuffleConfig (rnd (3 * (i + k))) (rnd (3 * (i + k) + 1))
          (rnd (3 * (i + k) + 2))) := by
  induction n with
  | zero => intro i k hk; omega
  | succ n ih =>
    intro i k hk
    cases k with
    | zero => simp [shuffleDraws]
    | succ k =>
      simp only [shuffleDraws, List.getElem?_cons_succ]
      rw [ih (i + 1) k (by omega)]
      have : i + 1 + k = i + (k + 1) := by omega
      rw [this]

/-- C12: for every outcome of the random source, `shuffle` with
`m_shuffleSteps = n` appends exactly `n` commands (none when `n <= 0`) to the
tail of the move queue, the `k`-th of them built from the draws `3k`, `3k+1`,
`3k+2` of `rand()`, each a legal command; the commands queued before stay
ahead of them, and no other member of the engine changes. -/
theorem shuffle_appends (rnd : ℕ → ℕ) (s : RubiksCube) :
    shuffle rnd s =
      { s with m_moveQueue := s.m_moveQueue ++ shuffleDraws rnd 0 s.m_shuffleSteps.toNat } ∧
    (shuffleDraws rnd 0 s.m_shuffleSteps.toNat).length = s.m_shuffleSteps.toNat ∧
    (s.m_shuffleSteps ≤ 0 → shuffle rnd s = s) ∧
    (∀ k, k < s.m_shuffleSteps.toNat →
      (shuffle rnd s).m_moveQueue[s.m_moveQueue.length + k]? =
        some (shuffleConfig (rnd (3 * k)) (rnd (3 * k + 1)) (rnd (3 * k + 2)))) ∧
    (∀ k, k < s.m_moveQueue.length → (shuffle rnd s).m_moveQueue[k]? = s.m_moveQueue[k]?) ∧
    (∀ c ∈ shuffleDraws rnd 0 s.m_shuffleSteps.toNat, Legal c) ∧
    (shuffle rnd s).m_cubes = s.m_cubes ∧
    (shuffle rnd s).m_isAnimating = s.m_isAnimating ∧
    (shuffle rnd s).m_currentAngle = s.m_currentAngle ∧
    activeConfig (shuffle rnd s) = activeConfig s ∧
    (shuffle rnd s).m_rotationSpeed = s.m_rotationSpeed := by
  refine ⟨shuffle_eq rnd s, length_shuffleDraws rnd _ 0, ?_, ?_, ?_,
    legal_shuffleDraws rnd _ 0, ?_, ?_, ?_, ?_, ?_⟩
  · intro h
    rw [shuffle_eq, Int.toNat_of_nonpos h]
    simp [shuffleDraws]
  · intro k hk
    rw [shuffle_eq]
    simp only
    rw [List.getElem?_append_right (Nat.le_add_right _ _), Nat.add_sub_cancel_left,
      shuffleDraws_getElem rnd _ 0 k hk]
    simp
  · intro k hk
    rw [shuffle_eq]
    simp only
    rw [List.getElem?_append_left hk]
  all_goals (rw [shuffle_eq]; try rfl)

/-! ## Legality of commands -/

theorem legal_keyConfig (key : Key) (cfg : RotationConfig) (h : keyConfig key = some cfg) :
    Legal cfg := by
  cases key <;> simp [keyConfig] at h <;> subst h <;> decide

/-- An invariant of the sub-cube list that holds after `init` and is kept by
every commit of a legal rotation holds in every reachable state; the spacing
never changes and the active and queued commands stay legal. -/
theorem reachable_induction (v sp : ℚ) (n : ℤ) (P : List Cube → Prop)
    (h0 : P (init (RubiksCube.new v sp n)).m_cubes)
    (hstep : ∀ cfg cubes, Legal cfg → P cubes → P (commitCubes sp cfg cubes))
    (s : RubiksCube) (h : Reachable v sp n s) :
    P s.m_cubes ∧ s.m_cubeSpacing = sp ∧ CommandsLegal s := by
  induction h with
  | init =>
    exact ⟨h0, rfl, by simp [init, RubiksCube.new], by simp [init, RubiksCube.new]⟩
  | initRotation s cfg _ hl ih =>
    obtain ⟨h1, h2, -, h4⟩ := ih
    exact ⟨h1, h2, fun _ => hl, h4⟩
  | addMove s cfg _ hl ih =>
    obtain ⟨h1, h2, h3, h4⟩ := ih
    refine ⟨h1, h2, h3, ?_⟩
    intro c hc
    simp only [addMove, List.mem_append, List.mem_singleton] at hc
    rcases hc with hc | rfl
    · exact h4 c hc
    · exact hl
  | shuffle s rnd _ ih =>
    obtain ⟨h1, h2, h3, h4⟩ := ih
    rw [shuffle_eq]
    refine ⟨h1, h2, h3, ?_⟩
    intro c hc
    simp only [List.mem_append] at hc
    rcases hc with hc | hc
    · exact h4 c hc
    · exact legal_shuffleDraws rnd _ 0 c hc
  | update s dt _ ih =>
    obtain ⟨h1, h2, h3, h4⟩ := ih
    rcases update_cases s dt with ⟨ha, hq, h⟩ | ⟨c, q, ha, hq, hc, h⟩ |
      ⟨c, q, ha, hq, hc, h⟩ | ⟨ha, hc, h⟩ | ⟨ha, hc, h⟩ <;> rw [h]
    · exact ⟨h1, h2, by simp [ha], h4⟩
    · have hc1 : Legal c := h4 c (by simp [hq])
      refine ⟨?_, h2, by simp, fun x hx => h4 x (by simp [hq, hx])⟩
      simp only
      rw [h2]
      exact hstep c _ hc1 h1
    · have hc1 : Legal c := h4 c (by simp [hq])
      exact ⟨h1, h2, fun _ => hc1, fun x hx => h4 x (by simp [hq, hx])⟩
    · refine ⟨?_, h2, by simp, h4⟩
      simp only
      rw [h2]
      exact hstep _ _ (h3 ha) h1
    · exact ⟨h1, h2, fun _ => h3 ha, h4⟩

/-- C13 (as stated, refuted): the command with axis (0,0,-1), side -1 and
direction 1 is not legal, yet `addMove` places it in the move queue,
`initRotation` makes it the active rotation, and the next `update(1)` commits
it and changes sub-cube transforms. -/
theorem illegal_command_accepted :
    ¬ Legal negativeAxisConfig ∧
    (addMove mainCube negativeAxisConfig).m_moveQueue = [negativeAxisConfig] ∧
    (initRotation mainCube negativeAxisConfig).m_isAnimating = true ∧
    activeConfig (initRotation mainCube negativeAxisConfig) = negativeAxisConfig ∧
    (update (initRotation mainCube negativeAxisConfig) 1).m_cubes ≠ mainCube.m_cubes := by
  refine ⟨by decide, by decide!, rfl, rfl, by decide!⟩

/-- C13 (amended): the engine does not check commands.  `addMove` appends
every command to the tail of the queue and `initRotation` makes every command
the active rotation.  Legality is kept by the callers: every command that
`key_callback` or `shuffle` builds is legal, and when only legal commands are
handed to the engine the active rotation and every queued command are legal
in every reachable state. -/
theorem commands_unchecked :
    (∀ (s : RubiksCube) (cfg : RotationConfig),
      (addMove s cfg).m_moveQueue = s.m_moveQueue ++ [cfg] ∧
      (initRotation s cfg).m_isAnimating = true ∧
      activeConfig (initRotation s cfg) = cfg) ∧
    (∀ (key : Key) (cfg : RotationConfig), keyConfig key = some cfg → Legal cfg) ∧
    (∀ r0 r1 r2 : ℕ, Legal (shuffleConfig r0 r1 r2)) ∧
    (∀ (v sp : ℚ) (n : ℤ) (s : RubiksCube), Reachable v sp n s → CommandsLegal s) := by
  refine ⟨fun s cfg => ⟨rfl, rfl, rfl⟩, legal_keyConfig, legal_shuffleConfig, ?_⟩
  intro v sp n s h
  exact (reachable_induction v sp n (fun _ => True) trivial (fun _ _ _ _ => trivial) s h).2.2

/-! ## Re-entrant requests -/

theorem key_callback_animating (rnd : ℕ → ℕ) (s : RubiksCube) (key : Key) (press : Bool)
    (ha : s.m_isAnimating = true) : key_callback rnd s key press = s := by
  unfold key_callback isAnimating
  cases press <;> simp [ha]

/-- C15: the engine does not enforce the re-entrancy guard.  Called while a
rotation is active, `initRotation(cfg)` is not rejected: it overwrites the
active axis, side and direction with `cfg` and resets the angle to 0, leaving
the move queue, the sub-cubes, the speed and the spacing unchanged; the
interrupted rotation is discarded: from then on the rotations committed, in
order, followed by those still pending are `cfg` and the queue, whatever the
frames.  The guard is in `key_callback`, which does nothing while
`isAnimating()` is true. -/
theorem initRotation_while_animating (s : RubiksCube) (cfg : RotationConfig)
    (ha : s.m_isAnimating = true) :
    (initRotation s cfg).m_isAnimating = true ∧
    activeConfig (initRotation s cfg) = cfg ∧
    (initRotation s cfg).m_currentAngle = 0 ∧
    (initRotation s cfg).m_moveQueue = s.m_moveQueue ∧
    (initRotation s cfg).m_cubes = s.m_cubes ∧
    (initRotation s cfg).m_rotationSpeed = s.m_rotationSpeed ∧
    (initRotation s cfg).m_cubeSpacing = s.m_cubeSpacing ∧
    (∀ l : List ℚ, commitLog (initRotation s cfg) l ++ pending (updates (initRotation s cfg) l)
      = cfg :: s.m_moveQueue) ∧
    ∀ (rnd : ℕ → ℕ) (key : Key) (press : Bool), key_callback rnd s key press = s := by
  refine ⟨rfl, rfl, rfl, rfl, rfl, rfl, rfl, fun l => ?_,
    fun rnd key press => key_callback_animating rnd s key press ha⟩
  rw [commitLog_append_pending]
  simp [pending, initRotation, activeConfig]

theorem initRotation_while_animating_witness :
    (initRotation mainCube frontTurn).m_isAnimating = true ∧
    activeConfig (initRotation (initRotation mainCube frontTurn) frontTurn.inverse) =
      frontTurn.inverse ∧
    (initRotation (initRotation mainCube frontTurn) frontTurn.inverse).m_cubes =
      (initRotation mainCube frontTurn).m_cubes ∧
    commitLog (initRotation (initRotation mainCube frontTurn) frontTurn.inverse) [1] ++
      pending (updates (initRotation (initRotation mainCube frontTurn) frontTurn.inverse) [1])
      = frontTurn.inverse :: (initRotation mainCube frontTurn).m_moveQueue :=
  have h := initRotation_while_animating (initRotation mainCube frontTurn) frontTurn.inverse rfl
  ⟨rfl, h.2.1, h.2.2.2.2.1, h.2.2.2.2.2.2.2.1 [1]⟩

/-! ## The anchored lattice invariant -/

theorem centre_fixed : ∀ t ∈ allTurns, ∀ h ∈ gridPoints,
    popcount (initMask h.x h.y h.z) ≤ 1 → t.move h = h := by decide!

theorem mask_zero_origin : ∀ h ∈ gridPoints, initMask h.x h.y h.z = 0 → h = ⟨0, 0, 0⟩ := by
  decide!

theorem layer_has_nine : ∀ t ∈ allTurns,
    gridPoints.countP (fun p => decide (p.dot t.ivec = t.side)) = 9 := by decide!

theorem normals_outward : ∀ r ∈ signedPerms, ∀ h ∈ gridPoints, ∀ i ∈ List.range 6,
    r.mulVec (localNormalsI i) ∈ axisDirectionsI ∧
    ((initMask h.x h.y h.z &&& (1 <<< i) ≠ 0) ↔
      (r.mulVec (localNormalsI i)).dot (r.mulVec h) = 1) := by decide!

theorem latticeInit_anchored : Anchored latticeInit := by
  refine ⟨by decide, ?_⟩
  decide!

theorem home_turn (t : Turn) (c : LatticeCube) : (c.turn t).home = c.home := by
  unfold LatticeCube.turn
  split_ifs <;> rfl

theorem anchored_turn (t : Turn) (ht : t ∈ allTurns) {cs : List LatticeCube}
    (hok : LatticeOK cs) (h : Anchored cs) : Anchored (cs.map (LatticeCube.turn t)) := by
  refine ⟨?_, ?_⟩
  · rw [List.map_map, ← h.1]
    apply List.map_congr_left
    intro c _
    exact home_turn t c
  · intro c hc hp
    obtain ⟨c0, hc0, rfl⟩ := List.mem_map.1 hc
    rw [home_turn] at hp ⊢
    rw [pos_turn, h.2 c0 hc0 hp]
    exact centre_fixed t ht c0.home (hok.1 c0 hc0).2 hp

theorem settledAnchored_init (v sp : ℚ) (n : ℤ) :
    SettledAnchored sp (init (RubiksCube.new v sp n)).m_cubes := by
  refine ⟨latticeInit, ?_, latticeInit_ok, latticeInit_anchored⟩
  rw [init_cubes]
  simp [RubiksCube.new]

theorem settledAnchored_commit (sp : ℚ) (hsp : 1 / 10 < sp) (cfg : RotationConfig)
    (cubes : List Cube) (hl : Legal cfg) (h : SettledAnchored sp cubes) :
    SettledAnchored sp (commitCubes sp cfg cubes) := by
  obtain ⟨t, ht, rfl⟩ := (legal_iff_turn cfg).1 hl
  obtain ⟨cs, rfl, hcs, ha⟩ := h
  exact ⟨cs.map (LatticeCube.turn t), commitCubes_toCube sp hsp t ht hcs,
    latticeOK_turn t ht hcs, anchored_turn t ht hcs ha⟩

/-- Every reachable state (spacing above 0.1) has settled, anchored sub-cubes. -/
theorem reachable_anchored (v sp : ℚ) (n : ℤ) (hsp : 1 / 10 < sp) (s : RubiksCube)
    (h : Reachable v sp n s) :
    SettledAnchored sp s.m_cubes ∧ s.m_cubeSpacing = sp ∧ CommandsLegal s :=
  reachable_induction v sp n (SettledAnchored sp) (settledAnchored_init v sp n)
    (settledAnchored_commit sp hsp) s h

/-! ## Engine quantities of a settled sub-cube -/

theorem latticeCoord_toCube (sp : ℚ) (h : sp ≠ 0) (c : LatticeCube) :
    latticeCoord sp (c.toCube sp) = c.pos := by
  simp [latticeCoord, LatticeCube.toCube, cround_mul_div sp h]

theorem dot_toVec3 (a b : IVec3) : dot a.toVec3 b.toVec3 = ((a.dot b : ℤ) : ℚ) := by
  simp [dot, IVec3.toVec3, IVec3.dot]

theorem turn_vec_eq (t : Turn) : t.vec = t.ivec.toVec3 := by
  obtain ⟨a, s, d⟩ := t
  fin_cases a <;> simp [Turn.vec, Turn.ivec, IVec3.toVec3]

theorem toMat3_toCube (sp : ℚ) (c : LatticeCube) :
    (c.toCube sp).model.toMat3 = c.rot.toMat3 := by
  simp [LatticeCube.toCube, Mat4.toMat3, Vec4.xyz, IMat3.toMat3, IVec3.toVec3]

theorem mulVec_localNormals_toVec3 (sp : ℚ) (c : LatticeCube) (i : ℕ) :
    (c.toCube sp).model.toMat3.mulVec (localNormals i) =
      (c.rot.mulVec (localNormalsI i)).toVec3 := by
  rw [mulVec_localNormals]
  rfl

theorem translation_toCube (sp : ℚ) (c : LatticeCube) :
    (c.toCube sp).model.c3.xyz = c.pos.scaled sp := by
  simp [LatticeCube.toCube, Vec4.xyz, IVec3.scaled]

theorem scaled_injective (sp : ℚ) (h : sp ≠ 0) : Function.Injective (IVec3.scaled sp) := by
  intro a b hab
  obtain ⟨ax, ay, az⟩ := a
  obtain ⟨bx, bry, bz⟩ := b
  simp only [IVec3.scaled, Vec3.mk.injEq] at hab
  obtain ⟨h1, h2, h3⟩ := hab
  have e1 := mul_right_cancel₀ h h1
  have e2 := mul_right_cancel₀ h h2
  have e3 := mul_right_cancel₀ h h3
  simp only [IVec3.mk.injEq]
  exact ⟨by exact_mod_cast e1, by exact_mod_cast e2, by exact_mod_cast e3⟩

/-! ## Layer selection -/

theorem isRotating_iff_coord (sp : ℚ) (hsp : 1 / 10 < sp) (t : Turn) (ht : t ∈ allTurns)
    (c : LatticeCube) (hc : c.pos.InGrid) :
    isRotating sp t.vec t.side (c.toCube sp) = true ↔
      dot (latticeCoord sp (c.toCube sp)).toVec3 t.vec = (t.side : ℚ) := by
  rw [isRotating_toCube sp hsp t ht c hc, latticeCoord_toCube sp (by linarith), turn_vec_eq,
    dot_toVec3, decide_eq_true_iff]
  exact Int.cast_inj.symm

theorem countP_isRotating (sp : ℚ) (hsp : 1 / 10 < sp) (t : Turn) (ht : t ∈ allTurns)
    {cs : List LatticeCube} (hok : LatticeOK cs) :
    ((cs.map (LatticeCube.toCube sp)).filter (isRotating sp t.vec t.side)).length = 9 := by
  rw [← List.countP_eq_length_filter, List.countP_map]
  have h1 : List.countP (isRotating sp t.vec t.side ∘ LatticeCube.toCube sp) cs =
      List.countP ((fun p => decide (p.dot t.ivec = t.side)) ∘ LatticeCube.pos) cs := by
    apply List.countP_congr
    intro c hc
    simp only [Function.comp]
    rw [isRotating_toCube sp hsp t ht c (latticeOK_pos_inGrid hok c hc)]
  rw [h1, ← List.countP_map, hok.2.countP_eq]
  exact layer_has_nine t ht

/-- C14 (as stated, refuted): with the positive spacing 0.05 the layer test
of the front turn on the freshly initialised cube selects 18 sub-cubes, not
9: the tolerance 0.1 does not separate the layers. -/
theorem layer_test_small_spacing :
    (0 : ℚ) < 1 / 20 ∧ Legal frontTurn ∧ Reachable 200 (1 / 20) 50 tightCube ∧
    tightCube.m_cubeSpacing = 1 / 20 ∧
    (tightCube.m_cubes.filter
      (isRotating (1 / 20) frontTurn.axis frontTurn.side)).length = 18 := by
  refine ⟨by norm_num, by decide, Reachable.init, rfl, by decide!⟩

/-- C14 (amended): for every spacing above 0.1, every legal command and
every reachable state, the layer test of the commit selects exactly the
sub-cubes whose rounded lattice coordinate along the axis equals `side`,
those are 9 of the 27 sub-cubes, and the commit replaces the transform of
exactly those by the quarter turn about `axis * side` (signed by
`direction`) times the transform, leaving the others unchanged. -/
theorem layer_selection (v sp : ℚ) (n : ℤ) (s : RubiksCube) (cfg : RotationConfig)
    (hsp : 1 / 10 < sp) (hr : Reachable v sp n s) (hl : Legal cfg) :
    (∀ cube ∈ s.m_cubes, isRotating s.m_cubeSpacing cfg.axis cfg.side cube = true ↔
      dot (latticeCoord s.m_cubeSpacing cube).toVec3 cfg.axis = (cfg.side : ℚ)) ∧
    (s.m_cubes.filter (isRotating s.m_cubeSpacing cfg.axis cfg.side)).length = 9 ∧
    s.m_cubes.length = 27 ∧
    commitCubes s.m_cubeSpacing cfg s.m_cubes = s.m_cubes.map (fun cube =>
      if isRotating s.m_cubeSpacing cfg.axis cfg.side cube = true then
        { cube with model := (rotate cfg.direction (cfg.axis.scale cfg.side)).mul cube.model }
      else cube) := by
  obtain ⟨⟨cs, hcs, hok, -⟩, h2, -⟩ := reachable_anchored v sp n hsp s hr
  obtain ⟨t, ht, rfl⟩ := (legal_iff_turn cfg).1 hl
  rw [h2, hcs]
  refine ⟨?_, countP_isRotating sp hsp t ht hok, ?_, rfl⟩
  · intro cube hcube
    obtain ⟨c, hc, rfl⟩ := List.mem_map.1 hcube
    exact isRotating_iff_coord sp hsp t ht c (latticeOK_pos_inGrid hok c hc)
  · rw [List.length_map]
    have := hok.2.length_eq
    rw [List.length_map] at this
    rw [this]
    rfl

theorem layer_selection_witness :
    (1 / 10 : ℚ) < 51 / 50 ∧ Reachable 200 (51 / 50) 50 (perform mainCube frontTurn [1]) ∧
    Legal frontTurn ∧
    ((perform mainCube frontTurn [1]).m_cubes.filter
      (isRotating (perform mainCube frontTurn [1]).m_cubeSpacing frontTurn.axis
        frontTurn.side)).length = 9 ∧
    (perform mainCube frontTurn [1]).m_cubes.length = 27 :=
  have hr : Reachable 200 (51 / 50) 50 (perform mainCube frontTurn [1]) :=
    Reachable.update _ 1 (Reachable.initRotation _ frontTurn Reachable.init (by decide))
  have h := layer_selection 200 (51 / 50) 50 (perform mainCube frontTurn [1]) frontTurn
    (by norm_num) hr (by decide)
  ⟨by norm_num, hr, by decide, h.2.1, h.2.2.1⟩

/-! ## The lattice invariant in engine terms -/

theorem axisDirections_eq : axisDirectionsI.map IVec3.toVec3 = axisDirections := by
  simp [axisDirectionsI, axisDirections, IVec3.toVec3]

theorem normals_onto : ∀ r ∈ signedPerms, ∀ d ∈ axisDirectionsI,
    ∃ i ∈ List.range 6, r.mulVec (localNormalsI i) = d := by decide!

theorem init_cubes_of_homes (v sp : ℚ) (n : ℤ) {cs : List LatticeCube}
    (h : cs.map LatticeCube.home = gridPoints) :
    (init (RubiksCube.new v sp n)).m_cubes =
      cs.map fun c => LatticeCube.toCube sp ⟨IMat3.identity, c.home⟩ := by
  rw [init_cubes]
  simp only [RubiksCube.new, List.nil_append, latticeInit, ← h, List.map_map]
  rfl

theorem pos_identity (h : IVec3) : LatticeCube.pos ⟨IMat3.identity, h⟩ = h := by
  simp [LatticeCube.pos, IMat3.mulVec, IMat3.identity]

/-- C16: lattice invariant.  With a spacing above 0.1, in every reachable
state: the translations of the sub-cubes are pairwise distinct and are
exactly the 27 points `spacing * (x, y, z)` with `x, y, z` in {-1, 0, 1};
every transform is affine with a signed permutation matrix as rotation block;
the rotation block maps the six local face normals onto the six axis
directions, and local face `i` is in the mask exactly when its image points
outward at the sub-cube's lattice position (dot product with the lattice
coordinate 1); the
sub-cube with mask 0 is at the origin; and every sub-cube keeps its mask,
those with at most one bit also their translation of `init`. -/
theorem lattice_invariant (v sp : ℚ) (n : ℤ) (s : RubiksCube) (hsp : 1 / 10 < sp)
    (hr : Reachable v sp n s) :
    (s.m_cubes.map fun c => c.model.c3.xyz).Perm (gridPoints.map (IVec3.scaled sp)) ∧
    (s.m_cubes.map fun c => c.model.c3.xyz).Nodup ∧
    (∀ cube ∈ s.m_cubes, cube.model.toMat3 ∈ signedPerms.map IMat3.toMat3 ∧
      cube.model.c0.w = 0 ∧ cube.model.c1.w = 0 ∧ cube.model.c2.w = 0 ∧ cube.model.c3.w = 1) ∧
    (∀ cube ∈ s.m_cubes, ∀ i, i < 6 →
      cube.model.toMat3.mulVec (localNormals i) ∈ axisDirections ∧
      ((cube.colorMask &&& (1 <<< i) ≠ 0) ↔
        dot (cube.model.toMat3.mulVec (localNormals i))
          (latticeCoord s.m_cubeSpacing cube).toVec3 = 1)) ∧
    (∀ cube ∈ s.m_cubes, ∀ d ∈ axisDirections,
      ∃ i, i < 6 ∧ cube.model.toMat3.mulVec (localNormals i) = d) ∧
    (∀ cube ∈ s.m_cubes, cube.colorMask = 0 → cube.model.c3.xyz = ⟨0, 0, 0⟩) ∧
    (∀ p ∈ s.m_cubes.zip (init (RubiksCube.new v sp n)).m_cubes,
      p.1.colorMask = p.2.colorMask ∧
      (popcount p.1.colorMask ≤ 1 → p.1.model.c3 = p.2.model.c3)) := by
  obtain ⟨⟨cs, hcs, hok, hanch⟩, h2, -⟩ := reachable_anchored v sp n hsp s hr
  have hne : sp ≠ 0 := by linarith
  have htr : (s.m_cubes.map fun c => c.model.c3.xyz) =
      (cs.map LatticeCube.pos).map (IVec3.scaled sp) := by
    rw [hcs, List.map_map, List.map_map]
    apply List.map_congr_left
    intro c _
    exact translation_toCube sp c
  have hperm : (s.m_cubes.map fun c => c.model.c3.xyz).Perm
      (gridPoints.map (IVec3.scaled sp)) := by
    rw [htr]
    exact hok.2.map _
  refine ⟨hperm, ?_, ?_, ?_, ?_, ?_, ?_⟩
  · rw [hperm.nodup_iff]
    exact List.Nodup.map (scaled_injective sp hne) (by decide)
  · intro cube hcube
    rw [hcs] at hcube
    obtain ⟨c, hc, rfl⟩ := List.mem_map.1 hcube
    refine ⟨?_, rfl, rfl, rfl, rfl⟩
    rw [toMat3_toCube]
    exact List.mem_map_of_mem _ (hok.1 c hc).1
  · intro cube hcube i hi
    rw [hcs] at hcube
    obtain ⟨c, hc, rfl⟩ := List.mem_map.1 hcube
    obtain ⟨hr1, hr2⟩ := hok.1 c hc
    obtain ⟨g1, g2⟩ := normals_outward c.rot hr1 c.home hr2 i (List.mem_range.2 hi)
    rw [h2, mulVec_localNormals_toVec3, latticeCoord_toCube sp hne, dot_toVec3]
    refine ⟨?_, ?_⟩
    · rw [← axisDirections_eq]
      exact List.mem_map_of_mem _ g1
    · have hm : (c.toCube sp).colorMask = initMask c.home.x c.home.y c.home.z := rfl
      rw [hm, g2]
      exact ⟨fun h => by exact_mod_cast h, fun h => by exact_mod_cast h⟩
  · intro cube hcube d hd
    rw [hcs] at hcube
    obtain ⟨c, hc, rfl⟩ := List.mem_map.1 hcube
    rw [← axisDirections_eq] at hd
    obtain ⟨dI, hdI, rfl⟩ := List.mem_map.1 hd
    obtain ⟨i, hi, hi2⟩ := normals_onto c.rot (hok.1 c hc).1 dI hdI
    exact ⟨i, List.mem_range.1 hi, by rw [mulVec_localNormals_toVec3, hi2]⟩
  · intro cube hcube hmask
    rw [hcs] at hcube
    obtain ⟨c, hc, rfl⟩ := List.mem_map.1 hcube
    have hm : initMask c.home.x c.home.y c.home.z = 0 := hmask
    have hhome := mask_zero_origin c.home (hok.1 c hc).2 hm
    have hpos := hanch.2 c hc (by rw [hm]; decide)
    rw [translation_toCube, hpos, hhome]
    simp [IVec3.scaled]
  · intro p hp
    rw [hcs, init_cubes_of_homes v sp n hanch.1, List.zip_map'] at hp
    obtain ⟨c, hc, rfl⟩ := List.mem_map.1 hp
    refine ⟨rfl, ?_⟩
    intro hpop
    have hpos := hanch.2 c hc hpop
    simp only [LatticeCube.toCube, pos_identity, hpos]

theorem lattice_invariant_witness :
    (1 / 10 : ℚ) < 51 / 50 ∧ Reachable 200 (51 / 50) 50 (perform mainCube frontTurn [1]) ∧
    ((perform mainCube frontTurn [1]).m_cubes.map fun c => c.model.c3.xyz).Perm
      (gridPoints.map (IVec3.scaled (51 / 50))) ∧
    ((perform mainCube frontTurn [1]).m_cubes.map fun c => c.model.c3.xyz).Nodup :=
  have hr : Reachable 200 (51 / 50) 50 (perform mainCube frontTurn [1]) :=
    Reachable.update _ 1 (Reachable.initRotation _ frontTurn Reachable.init (by decide))
  have h := lattice_invariant 200 (51 / 50) 50 (perform mainCube frontTurn [1])
    (by norm_num) hr
  ⟨by norm_num, hr, h.1, h.2.1⟩

/-! ## Index safety -/

/-- C17: index safety of `getCubeState`.  With a spacing above 0.1, in every
reachable state the rounded lattice coordinates `x, y, z` of every sub-cube
are -1, 0 or 1, so each of the index expressions `x + 1`, `1 - x`, `1 - y`,
`z + 1`, `1 - z` lies in {0, 1, 2}; every assignment of `getCubeState` has
its row and its column inside the 3x3 array, and the read-out is defined. -/
theorem index_safety (v sp : ℚ) (n : ℤ) (s : RubiksCube) (hsp : 1 / 10 < sp)
    (hr : Reachable v sp n s) :
    (∀ cube ∈ s.m_cubes,
      (0 ≤ (latticeCoord s.m_cubeSpacing cube).x + 1 ∧
        (latticeCoord s.m_cubeSpacing cube).x + 1 ≤ 2) ∧
      (0 ≤ 1 - (latticeCoord s.m_cubeSpacing cube).x ∧
        1 - (latticeCoord s.m_cubeSpacing cube).x ≤ 2) ∧
      (0 ≤ 1 - (latticeCoord s.m_cubeSpacing cube).y ∧
        1 - (latticeCoord s.m_cubeSpacing cube).y ≤ 2) ∧
      (0 ≤ (latticeCoord s.m_cubeSpacing cube).z + 1 ∧
        (latticeCoord s.m_cubeSpacing cube).z + 1 ≤ 2) ∧
      (0 ≤ 1 - (latticeCoord s.m_cubeSpacing cube).z ∧
        1 - (latticeCoord s.m_cubeSpacing cube).z ≤ 2)) ∧
    (∀ w ∈ stateWrites s, 0 ≤ w.row ∧ w.row < 3 ∧ 0 ≤ w.col ∧ w.col < 3) ∧
    (getCubeState s).isSome = true := by
  obtain ⟨⟨cs, hcs, hok, -⟩, h2, -⟩ := reachable_anchored v sp n hsp s hr
  have hne : sp ≠ 0 := by linarith
  have hw : stateWrites s = cs.flatMap LatticeCube.writes :=
    stateWrites_settled s (by rw [h2]; exact hne) cs (by rw [h2]; exact hcs)
  have hb : ∀ w ∈ stateWrites s, w.inBounds := by
    intro w hwm
    rw [hw] at hwm
    exact ((lattice_coverage hok).1 w hwm).1
  refine ⟨?_, hb, ?_⟩
  · intro cube hcube
    rw [hcs] at hcube
    obtain ⟨c, hc, rfl⟩ := List.mem_map.1 hcube
    rw [h2, latticeCoord_toCube sp hne]
    obtain ⟨hx, hy, hz⟩ := latticeOK_pos_inGrid hok c hc
    refine ⟨⟨?_, ?_⟩, ⟨?_, ?_⟩, ⟨?_, ?_⟩, ⟨?_, ?_⟩, ⟨?_, ?_⟩⟩ <;> omega
  · obtain ⟨st, hst⟩ := writeAll_some (stateWrites s) blackState hb
    unfold getCubeState
    rw [hst]
    rfl

theorem index_safety_witness :
    (1 / 10 : ℚ) < 51 / 50 ∧ Reachable 200 (51 / 50) 50 (perform mainCube frontTurn [1]) ∧
    (∀ w ∈ stateWrites (perform mainCube frontTurn [1]),
      0 ≤ w.row ∧ w.row < 3 ∧ 0 ≤ w.col ∧ w.col < 3) ∧
    (getCubeState (perform mainCube frontTurn [1])).isSome = true :=
  have hr : Reachable 200 (51 / 50) 50 (perform mainCube frontTurn [1]) :=
    Reachable.update _ 1 (Reachable.initRotation _ frontTurn Reachable.init (by decide))
  ⟨by norm_num, hr,
    (index_safety 200 (51 / 50) 50 (perform mainCube frontTurn [1]) (by norm_num) hr).2⟩


end Rubiks
